import Mathlib

/-!
# raspi-led-coder: Hamming encoder and pulse transmitter

A shallow embedding of `main.go`.

* A Go `string` is modelled as a `List Char`, one element per byte.  Every
  string the program builds itself (`"101"`, the `%08b` rendering, the output
  of `encode`) is ASCII, so byte indexing `data[i]` and rune iteration
  `range message` both read the list element by element.
* Go `int` is taken to be 64 bits wide.  The `int` values that occur in
  `encode` are positions and bits, all non-negative; they are modelled as
  `Nat`.  The only place where the two's-complement representation is visible
  is `n & -n` in `isPerfectSquare`, modelled on the 64-bit pattern of `-n`.
  Statements about power-of-two positions carry the hypothesis
  `data.length < 2^62`, which keeps every position of the code word a Go
  `int`.
* `time.Duration` is an `int64` count of nanoseconds: an `Int`, with the
  product `duration*2` wrapped to 64 bits.
* The output pin is an oracle telling, for the k-th call of `Out` made by the
  process, whether it fails; the effects of the program on the outside world
  are recorded as a trace of `Out` and `Sleep` calls.  Log lines are not part
  of the model.
-/

namespace LedCoder

/-! ## Hamming encoder -/

/-- Go: `func isPerfectSquare(n int) bool { return n == (n & -n) }`.
For `0 ≤ n < 2^63` the 64-bit pattern of `n` is `n` and that of `-n` is
`(2^64 - n) mod 2^64`. -/
def isPerfectSquare (n : Nat) : Bool :=
  n == (n &&& ((2 ^ 64 - n) % 2 ^ 64))

/-- Go: `func cToB(b byte) int`. -/
def cToB (b : Char) : Nat :=
  if b = '1' then 1 else 0

/-- First loop of `encode`:
`for pos, i := 0, 0; i < len(data); pos++ { ... }`.
One unit of fuel is spent per iteration; `none` means the fuel ran out while
the loop condition still held. -/
def fillLoop (data : List Char) : Nat → Nat → Nat → List Nat → Option (List Nat)
  | 0, _, i, bits => if i < data.length then none else some bits
  | fuel + 1, pos, i, bits =>
    if h : i < data.length then
      if isPerfectSquare (pos + 1) then
        fillLoop data fuel (pos + 1) i (bits ++ [0])
      else
        fillLoop data fuel (pos + 1) (i + 1) (bits ++ [cToB data[i]])
    else some bits

/-- Inner loop of the second loop of `encode`: the value `p` after
`for i, _ := range bits { if i+1 != pos+1 && ((i+1)&(pos+1) != 0) { p ^= bits[i] } }`
started from `p := 0`. -/
def parityOf (bits : List Nat) (pos : Nat) : Nat :=
  (List.range bits.length).foldl
    (fun p i => if i + 1 ≠ pos + 1 ∧ (i + 1) &&& (pos + 1) ≠ 0 then p ^^^ bits.getD i 0 else p) 0

/-- One iteration of the second loop of `encode`, at index `pos`. -/
def parityStep (bits : List Nat) (pos : Nat) : List Nat :=
  if isPerfectSquare (pos + 1) then bits.set pos (parityOf bits pos) else bits

/-- Second loop of `encode`: `for pos, _ := range bits { ... }`.  The range
is fixed when the loop starts; the slice is updated in place. -/
def parityLoop (bits : List Nat) : List Nat :=
  (List.range bits.length).foldl parityStep bits

/-- Third loop of `encode`: `hcode += string(bit + 48)`. -/
def render (bits : List Nat) : List Char :=
  bits.map (fun bit => Char.ofNat (bit + 48))

/-- Fuel given to the first loop of `encode`; `fillLoop_fuel` shows that it
is never exhausted. -/
def encodeFuel (data : List Char) : Nat :=
  2 * data.length + 2

/-- Go: `func encode(data string) (hcode string)`. -/
def encode (data : List Char) : List Char :=
  match fillLoop data (encodeFuel data) 0 0 [] with
  | some bits => render (parityLoop bits)
  | none => []

/-! ## Output line and pulse train -/

/-- Logical level of the line: `gpio.Low` and `gpio.High`. -/
inductive Level
  | Low
  | High
deriving DecidableEq, Repr

/-- Calls the program makes to the outside world. -/
inductive Event
  | out (l : Level)
  | sleep (d : Int)
deriving DecidableEq, Repr

/-- An error value returned by `pin.Out`. -/
abbrev GoError := String

/-- The pin: `pin k` is the result of the k-th call (counting from 0) of
`pin.Out` made by the process, `none` for `nil`. -/
abbrev Pin := Nat → Option GoError

/-- What the process has done so far. -/
structure World where
  /-- number of calls of `pin.Out` made so far -/
  outs : Nat
  /-- level of the last call of `pin.Out` that succeeded -/
  line : Option Level
  /-- the calls made so far, oldest first -/
  trace : List Event
deriving DecidableEq, Repr

/-- The world before the process has touched the line. -/
def World.init : World :=
  ⟨0, none, []⟩

/-- A call `pin.Out(l)`. -/
def pinOut (pin : Pin) (l : Level) (w : World) : World × Option GoError :=
  match pin w.outs with
  | some err => (⟨w.outs + 1, w.line, w.trace ++ [Event.out l]⟩, some err)
  | none => (⟨w.outs + 1, some l, w.trace ++ [Event.out l]⟩, none)

/-- A call `time.Sleep(d)`. -/
def sleep (d : Int) (w : World) : World :=
  ⟨w.outs, w.line, w.trace ++ [Event.sleep d]⟩

/-- The level `send` picks for a character:
`l := gpio.Low; if bit == '1' { l = gpio.High }`. -/
def levelOf (bit : Char) : Level :=
  if bit = '1' then Level.High else Level.Low

/-- The loop of `send`: `for _, bit := range message { ... }`. -/
def sendLoop (pause : Int) (pin : Pin) : List Char → World → World × Option GoError
  | [], w => (w, none)
  | bit :: rest, w =>
    match pinOut pin (levelOf bit) w with
    | (w1, some err) => (w1, some err)
    | (w1, none) => sendLoop pause pin rest (sleep pause w1)

/-- Go: `func send(message string, pause time.Duration, pin gpio.PinIO) error`. -/
def send (message : List Char) (pause : Int) (pin : Pin) (w : World) :
    World × Option GoError :=
  sendLoop pause pin (encode message) w

/-- Go: `func powerOff(pin gpio.PinIO) error`. -/
def powerOff (pin : Pin) (w : World) : World × Option GoError :=
  match pinOut pin Level.Low w with
  | (w1, some err) => (w1, some err)
  | (w1, none) => (w1, none)

/-! ## Session -/

/-- Value of an `int64` expression: the mathematical result wrapped into
`[-2^63, 2^63)`. -/
def wrap64 (x : Int) : Int :=
  (x + 2 ^ 63) % 2 ^ 64 - 2 ^ 63

/-- Go: `fmt.Sprintf("%08b", payload)` for a `uint8`: the binary digits, most
significant first, padded with zeros on the left to width 8. -/
def sprintf08b (payload : Nat) : List Char :=
  let ds := Nat.toDigits 2 payload
  List.replicate (8 - ds.length) '0' ++ ds

/-- How the process ends; `running` is a transmit loop that is still going
when the observation stops. -/
inductive Outcome
  | exit0
  | fatal (err : GoError)
  | running
deriving DecidableEq, Repr

/-- Body of the transmit loop of `main` up to `log.Println("End")`:
preamble, message, trailer.  An error is what `main` hands to `log.Fatal`. -/
def frame (bits : List Char) (duration : Int) (pin : Pin) (w : World) :
    World × Option GoError :=
  match send ['1', '0', '1'] (wrap64 (duration * 2)) pin w with
  | (w1, some err) => (w1, some err)
  | (w1, none) =>
    match send bits duration pin w1 with
    | (w2, some err) => (w2, some err)
    | (w2, none) =>
      match send ['1', '0', '1'] (wrap64 (duration * 2)) pin w2 with
      | (w3, some err) => (w3, some err)
      | (w3, none) => (w3, none)

/-- The transmit loop of `main` followed by the shutdown; `n` bounds the
number of frames observed. -/
def transmit (bits : List Char) (duration repeatDuration : Int) (pin : Pin) :
    Nat → World → World × Outcome
  | 0, w => (w, Outcome.running)
  | n + 1, w =>
    match frame bits duration pin w with
    | (w1, some err) => (w1, Outcome.fatal err)
    | (w1, none) =>
      if repeatDuration = 0 then
        match powerOff pin w1 with
        | (w2, some err) => (w2, Outcome.fatal err)
        | (w2, none) => (w2, Outcome.exit0)
      else
        transmit bits duration repeatDuration pin n (sleep repeatDuration w1)

/-- Command-line flags of the program. -/
structure Flags where
  flagCodeWordDuration : Nat
  flagPayload : Nat
  flagRepeat : Nat

/-- Go: `func main()`, from the point where the pin has been obtained; the
signal handler is not part of this sequential model. -/
def main (flags : Flags) (pin : Pin) (n : Nat) : World × Outcome :=
  let payload := flags.flagPayload % 256
  let duration := wrap64 (wrap64 flags.flagCodeWordDuration * 1000000)
  let repeatDuration := wrap64 (wrap64 flags.flagRepeat * 1000000)
  let bits := sprintf08b payload
  transmit bits duration repeatDuration pin n World.init

/-! ## Auxiliary definitions used in the statements and proofs -/

/-- The first loop of `encode` seen from the data still to be placed: the
bits appended from index `pos` on when `rest` is what remains of `data`. -/
def layout : Nat → Nat → List Char → Option (List Nat)
  | _, _, [] => some []
  | 0, _, _ :: _ => none
  | fuel + 1, pos, c :: cs =>
    if isPerfectSquare (pos + 1) then
      (layout fuel (pos + 1) (c :: cs)).map (fun out => 0 :: out)
    else
      (layout fuel (pos + 1) cs).map (fun out => cToB c :: out)

/-- The pulse train of a word: for each character in order, the line set to
the level of the character and then held for `t`. -/
def pulses : List Char → Int → List Event
  | [], _ => []
  | c :: cs, t => Event.out (levelOf c) :: Event.sleep t :: pulses cs t

/-- Number of calls of `pin.Out` in a trace. -/
def outCalls (tr : List Event) : Nat :=
  tr.countP (fun ev => match ev with
    | Event.out _ => true
    | Event.sleep _ => false)

/-- Number of calls of `time.Sleep` in a trace. -/
def sleepCalls (tr : List Event) : Nat :=
  tr.countP (fun ev => match ev with
    | Event.out _ => false
    | Event.sleep _ => true)

/-- The line level left by driving the characters of `w` one after the other,
starting from level `l`. -/
def lineAfter (w : List Char) (l : Option Level) : Option Level :=
  w.foldl (fun _ c => some (levelOf c)) l

/-- The events of one frame that goes through: preamble, message, trailer,
the preamble and trailer held for `wrap64 (duration * 2)` per bit. -/
def frameEvents (bits : List Char) (duration : Int) : List Event :=
  pulses (encode ['1', '0', '1']) (wrap64 (duration * 2))
    ++ pulses (encode bits) duration
    ++ pulses (encode ['1', '0', '1']) (wrap64 (duration * 2))

/-- The characters of one frame in the order they are driven. -/
def frameWord (bits : List Char) : List Char :=
  encode ['1', '0', '1'] ++ encode bits ++ encode ['1', '0', '1']

/-- The bit written at position `p` (counted from 1) of a word. -/
def bitAt (w : List Char) (p : Nat) : Nat :=
  cToB (w.getD (p - 1) '0')

/-- The XOR of the bits of `w` at all positions `i` with `1 ≤ i ≤ len(w)`,
`i ≠ p` and `i AND p ≠ 0`. -/
def coveredXor (w : List Char) (p : Nat) : Nat :=
  (((List.range' 1 w.length).filter (fun i => decide (i ≠ p ∧ i &&& p ≠ 0))).map
    (bitAt w)).foldl (fun acc b => acc ^^^ b) 0

/-- Whether `n` is a power of two: `n = 2^k` for some `k` (then `k < n`). -/
def powerOfTwo (n : Nat) : Bool :=
  (List.range n).any (fun k => n == 2 ^ k)

/-- The entries of `l` at the positions `pos+1, pos+2, ...` (the head of `l`
has position `pos+1`) that do not satisfy `c`, in increasing position
order. -/
def readFrom {α : Type} (c : Nat → Bool) (d : α) (pos : Nat) (l : List α) : List α :=
  ((List.range' (pos + 1) l.length).filter (fun p => !c p)).map
    (fun p => l.getD (p - (pos + 1)) d)

/-- The characters of `w` at the positions (counted from 1) that are not
powers of two, in increasing position order. -/
def nonParityChars (w : List Char) : List Char :=
  readFrom powerOfTwo '0' 0 w

/-- The other bit character. -/
def flipChar (c : Char) : Char :=
  if c = '1' then '0' else '1'

/-- The word `w` with the bit at position `j` (counted from 1) flipped. -/
def flipAt (w : List Char) (j : Nat) : List Char :=
  w.set (j - 1) (flipChar (w.getD (j - 1) '0'))

/-- Whether the parity equation of position `p` fails on `w`: the bit stored
at `p` differs from the XOR of the bits it covers. -/
def parityFails (w : List Char) (p : Nat) : Bool :=
  bitAt w p != coveredXor w p

/-- The sum of the power-of-two positions of `w` whose parity equation
fails. -/
def syndrome (w : List Char) : Nat :=
  (((List.range w.length).filter
    (fun k => decide (2 ^ k ≤ w.length) && parityFails w (2 ^ k))).map (fun k => 2 ^ k)).sum

/-- The number of positions among `1..N` that are not powers of two. -/
def dataPositions (N : Nat) : Nat :=
  ((List.range' 1 N).filter (fun p => !powerOfTwo p)).length

/-- The number of positions among `1..N` that are powers of two. -/
def parityPositions (N : Nat) : Nat :=
  ((List.range' 1 N).filter powerOfTwo).length

/-- The value of a word read as a binary number, first character most
significant, every character other than '1' counting as 0. -/
def binValue (w : List Char) : Nat :=
  w.foldl (fun acc c => 2 * acc + cToB c) 0

/-- The byte `c` with everything other than '1' replaced by '0'. -/
def asBit (c : Char) : Char :=
  if c = '1' then '1' else '0'

/-- Iterations the first loop of `encode` may still spend on parity positions
before the next data bit is placed, seen from index `pos`. -/
def slack (pos : Nat) : Nat :=
  if pos = 0 then 2 else if isPerfectSquare (pos + 1) then 1 else 0

/-! ## The power-of-two test -/

theorem isPerfectSquare_two_pow : ∀ k, k < 64 → isPerfectSquare (2 ^ k) = true := by
  decide

theorem two_pow_of_land_pred (n : Nat) (h0 : 0 < n)
    (h : ∀ i, n.testBit i = true → (n - 1).testBit i = false) : ∃ k, n = 2 ^ k := by
  induction n using Nat.strong_induction_on with
  | _ n ih =>
    rcases Nat.even_or_odd n with he | ho
    · obtain ⟨a, ha⟩ := he
      have ha0 : 0 < a := by omega
      have hrec : ∃ k, a = 2 ^ k := by
        apply ih a (by omega) ha0
        intro i hi
        have h1 := h (i + 1) (by rw [Nat.testBit_succ, show n / 2 = a by omega]; exact hi)
        rw [Nat.testBit_succ, show (n - 1) / 2 = a - 1 by omega] at h1
        exact h1
      obtain ⟨k, hk⟩ := hrec
      exact ⟨k + 1, by rw [pow_succ]; omega⟩
    · obtain ⟨a, ha⟩ := ho
      by_cases ha0 : a = 0
      · exact ⟨0, by simp [ha, ha0]⟩
      · exfalso
        obtain ⟨i, hi⟩ := Nat.ne_zero_implies_bit_true ha0
        have h1 := h (i + 1) (by rw [Nat.testBit_succ, show n / 2 = a by omega]; exact hi)
        rw [Nat.testBit_succ, show (n - 1) / 2 = a by omega, hi] at h1
        exact absurd h1 (by simp)

theorem two_pow_of_isPerfectSquare (n : Nat) (h0 : 0 < n) (h : isPerfectSquare n = true) :
    ∃ k, k < 64 ∧ n = 2 ^ k := by
  unfold isPerfectSquare at h
  have h1 : n = n &&& ((2 ^ 64 - n) % 2 ^ 64) := by simpa using h
  have hlt : n < 2 ^ 64 := by
    by_contra hge
    have hz : 2 ^ 64 - n = 0 := by omega
    rw [hz] at h1
    simp at h1
    omega
  have h2 : (2 ^ 64 - n) % 2 ^ 64 = 2 ^ 64 - ((n - 1) + 1) := by
    rw [Nat.mod_eq_of_lt (by omega)]
    congr 1
    omega
  rw [h2] at h1
  have hb : ∀ i, n.testBit i = true → (n - 1).testBit i = false := by
    intro i hi
    have h3 := congrArg (fun x => x.testBit i) h1
    simp only [Nat.testBit_and] at h3
    rw [Nat.testBit_two_pow_sub_succ (by omega), hi] at h3
    simp at h3
    exact h3.2
  obtain ⟨k, hk⟩ := two_pow_of_land_pred n h0 hb
  refine ⟨k, ?_, hk⟩
  by_contra hk64
  have hle : 2 ^ 64 ≤ 2 ^ k := Nat.pow_le_pow_right (by norm_num) (by omega)
  omega

/-- Below `2^64` the test of the code is the test for a power of two. -/
theorem isPerfectSquare_iff (n : Nat) (h0 : 0 < n) (hn : n < 2 ^ 64) :
    isPerfectSquare n = true ↔ ∃ k, n = 2 ^ k := by
  constructor
  · intro h
    obtain ⟨k, _, hk⟩ := two_pow_of_isPerfectSquare n h0 h
    exact ⟨k, hk⟩
  · rintro ⟨k, rfl⟩
    apply isPerfectSquare_two_pow
    by_contra hk64
    have hle : 2 ^ 64 ≤ 2 ^ k := Nat.pow_le_pow_right (by norm_num) (by omega)
    omega

theorem two_pow_land_two_pow (j k : Nat) (h : j ≠ k) : 2 ^ j &&& 2 ^ k = 0 := by
  apply Nat.eq_of_testBit_eq
  intro i
  simp only [Nat.testBit_and, Nat.testBit_two_pow, Nat.zero_testBit]
  by_cases hj : j = i
  · subst hj
    simp [Ne.symm h]
  · simp [hj]

theorem land_two_pow_ne_zero (j k : Nat) : j &&& 2 ^ k ≠ 0 ↔ j.testBit k = true := by
  constructor
  · intro h
    by_contra hb
    apply h
    apply Nat.eq_of_testBit_eq
    intro i
    simp only [Nat.testBit_and, Nat.testBit_two_pow, Nat.zero_testBit]
    by_cases hk : k = i
    · subst hk
      simp [hb]
    · simp [hk]
  · intro hb h
    have h1 := congrArg (fun x => x.testBit k) h
    simp [Nat.testBit_two_pow, hb] at h1

theorem isPerfectSquare_succ_false (n : Nat) (h2 : 2 ≤ n) (h : isPerfectSquare n = true) :
    isPerfectSquare (n + 1) = false := by
  by_contra hc
  have hc1 : isPerfectSquare (n + 1) = true := by simpa using hc
  obtain ⟨k, _, hk⟩ := two_pow_of_isPerfectSquare n (by omega) h
  obtain ⟨j, _, hj⟩ := two_pow_of_isPerfectSquare (n + 1) (by omega) hc1
  cases k with
  | zero => simp at hk; omega
  | succ k =>
    cases j with
    | zero => simp at hj; omega
    | succ j =>
      rw [pow_succ] at hk hj
      omega

/-! ## The first loop of `encode` -/

theorem fillLoop_eq_map (data : List Char) (fuel pos i : Nat) (bits : List Nat) :
    fillLoop data fuel pos i bits
      = (fillLoop data fuel pos i []).map (fun out => bits ++ out) := by
  induction fuel generalizing pos i bits with
  | zero =>
    unfold fillLoop
    split <;> simp
  | succ fuel ih =>
    unfold fillLoop
    split
    · split
      · rw [ih (pos + 1) i (bits ++ [0]), ih (pos + 1) i ([] ++ [0])]
        simp [Option.map_map, Function.comp_def]
      · rw [ih (pos + 1) (i + 1) (bits ++ _), ih (pos + 1) (i + 1) ([] ++ _)]
        simp [Option.map_map, Function.comp_def]
    · simp

theorem fillLoop_eq_layout (data : List Char) (fuel pos i : Nat) :
    fillLoop data fuel pos i [] = layout fuel pos (data.drop i) := by
  induction fuel generalizing pos i with
  | zero =>
    unfold fillLoop
    split
    · rename_i h
      rw [List.drop_eq_getElem_cons h]
      rfl
    · rename_i h
      rw [List.drop_eq_nil_of_le (by omega)]
      rfl
  | succ fuel ih =>
    unfold fillLoop
    split
    · rename_i h
      rw [List.drop_eq_getElem_cons h]
      unfold layout
      split
      · rw [fillLoop_eq_map, ih, List.drop_eq_getElem_cons h]
        simp
      · rw [fillLoop_eq_map, ih]
        simp
    · rename_i h
      rw [List.drop_eq_nil_of_le (by omega)]
      rfl

theorem layout_some (fuel pos : Nat) (rest : List Char)
    (h : 2 * rest.length + slack pos ≤ fuel) : ∃ out, layout fuel pos rest = some out := by
  induction fuel generalizing pos rest with
  | zero =>
    cases rest with
    | nil => exact ⟨[], rfl⟩
    | cons c cs => simp at h
  | succ fuel ih =>
    cases rest with
    | nil => exact ⟨[], by unfold layout; rfl⟩
    | cons c cs =>
      unfold layout
      by_cases hp : isPerfectSquare (pos + 1) = true
      · rw [if_pos hp]
        have hs : slack (pos + 1) + 1 ≤ slack pos := by
          unfold slack
          by_cases h0 : pos = 0
          · subst h0
            simp
            split <;> omega
          · rw [if_neg h0, if_pos hp, if_neg (by omega)]
            rw [isPerfectSquare_succ_false (pos + 1) (by omega) hp]
            simp
        obtain ⟨out, ho⟩ := ih (pos + 1) (c :: cs) (by omega)
        exact ⟨0 :: out, by rw [ho]; rfl⟩
      · rw [if_neg hp]
        have hs : slack (pos + 1) ≤ 1 := by
          unfold slack
          rw [if_neg (by omega)]
          split <;> omega
        simp only [List.length_cons] at h
        obtain ⟨out, ho⟩ := ih (pos + 1) cs (by omega)
        exact ⟨cToB c :: out, by rw [ho]; rfl⟩

/-- The fuel `encode` gives to its first loop is enough: the loop ends with
the loop condition false. -/
theorem fillLoop_fuel (data : List Char) :
    ∃ bits, fillLoop data (encodeFuel data) 0 0 [] = some bits := by
  rw [fillLoop_eq_layout]
  apply layout_some
  simp [encodeFuel, slack]

/-! ## The pulse train -/

theorem pulses_append (u v : List Char) (t : Int) :
    pulses (u ++ v) t = pulses u t ++ pulses v t := by
  induction u with
  | nil => rfl
  | cons c cs ih => simp [pulses, ih]

theorem pulses_length (u : List Char) (t : Int) : (pulses u t).length = 2 * u.length := by
  induction u with
  | nil => rfl
  | cons c cs ih => simp [pulses, ih]; omega

theorem lineAfter_getLast (u : List Char) (l : Option Level) (c : Char)
    (h : u.getLast? = some c) : lineAfter u l = some (levelOf c) := by
  induction u generalizing l with
  | nil => simp at h
  | cons a as ih =>
    cases as with
    | nil =>
      simp at h
      simp [lineAfter, h]
    | cons b bs =>
      have h1 : (b :: bs).getLast? = some c := by
        rw [List.getLast?_cons_cons] at h
        exact h
      have h2 := ih (some (levelOf a)) h1
      simpa [lineAfter] using h2

/-- A run of `sendLoop` in which no call of `Out` fails. -/
theorem sendLoop_ok (pause : Int) (pin : Pin) (msg : List Char) (w : World)
    (hok : ∀ i, w.outs ≤ i → i < w.outs + msg.length → pin i = none) :
    sendLoop pause pin msg w
      = (⟨w.outs + msg.length, lineAfter msg w.line, w.trace ++ pulses msg pause⟩, none) := by
  induction msg generalizing w with
  | nil => simp [sendLoop, lineAfter, pulses]
  | cons c cs ih =>
    have h0 : pin w.outs = none := hok w.outs (le_refl _) (by simp)
    have h1 := ih (sleep pause (pinOut pin (levelOf c) w).1) (by
      intro i hi1 hi2
      simp [sleep, pinOut, h0] at hi1 hi2
      exact hok i (by omega) (by simp; omega))
    simp only [sendLoop, pinOut, h0]
    simp only [pinOut, h0] at h1
    rw [h1]
    simp [sleep, lineAfter, pulses]
    omega

/-- A run of `sendLoop` in which the call of `Out` with index `j` is the
first to fail. -/
theorem sendLoop_fail (pause : Int) (pin : Pin) (msg : List Char) (w : World) (j : Nat)
    (e : GoError) (hj1 : w.outs ≤ j) (hj2 : j < w.outs + msg.length)
    (hok : ∀ i, w.outs ≤ i → i < j → pin i = none) (hfail : pin j = some e) :
    sendLoop pause pin msg w
      = (⟨j + 1, lineAfter (msg.take (j - w.outs)) w.line,
          w.trace ++ (pulses msg pause).take (2 * (j - w.outs) + 1)⟩, some e) := by
  induction msg generalizing w with
  | nil => simp at hj2; omega
  | cons c cs ih =>
    by_cases hjw : j = w.outs
    · subst hjw
      simp [sendLoop, pinOut, hfail, lineAfter, pulses]
    · have h0 : pin w.outs = none := hok w.outs (le_refl _) (by omega)
      have h1 := ih (sleep pause (pinOut pin (levelOf c) w).1)
        (by simp [sleep, pinOut, h0]; omega)
        (by simp [sleep, pinOut, h0]; simp at hj2; omega)
        (by
          intro i hi1 hi2
          simp [sleep, pinOut, h0] at hi1
          exact hok i (by omega) hi2)
      simp only [sendLoop, pinOut, h0]
      simp only [pinOut, h0] at h1
      rw [h1]
      have h2 : j - w.outs = (j - (w.outs + 1)) + 1 := by omega
      simp only [sleep]
      rw [h2]
      simp [lineAfter, pulses, Nat.mul_add, List.take_succ_cons]

theorem outCalls_append (u v : List Event) : outCalls (u ++ v) = outCalls u + outCalls v := by
  simp [outCalls]

theorem sleepCalls_append (u v : List Event) :
    sleepCalls (u ++ v) = sleepCalls u + sleepCalls v := by
  simp [sleepCalls]

theorem outCalls_pulses (u : List Char) (t : Int) : outCalls (pulses u t) = u.length := by
  induction u with
  | nil => rfl
  | cons c cs ih =>
    have h : outCalls (pulses (c :: cs) t) = outCalls (pulses cs t) + 1 := by
      simp [outCalls, pulses]
    rw [h, ih]
    simp

theorem sleepCalls_pulses (u : List Char) (t : Int) : sleepCalls (pulses u t) = u.length := by
  induction u with
  | nil => rfl
  | cons c cs ih =>
    have h : sleepCalls (pulses (c :: cs) t) = sleepCalls (pulses cs t) + 1 := by
      simp [sleepCalls, pulses]
    rw [h, ih]
    simp

theorem pulses_getElem (u : List Char) (t : Int) (k : Nat) :
    (pulses u t)[2 * k]? = (u[k]?).map (fun c => Event.out (levelOf c))
    ∧ (pulses u t)[2 * k + 1]? = (u[k]?).map (fun _ => Event.sleep t) := by
  induction u generalizing k with
  | nil => simp [pulses]
  | cons c cs ih =>
    cases k with
    | zero => simp [pulses]
    | succ k =>
      have h1 : 2 * (k + 1) = 2 * k + 1 + 1 := by omega
      rw [h1]
      simpa [pulses] using ih k

theorem pulses_take (u : List Char) (t : Int) (m : Nat) (c : Char) (h : u[m]? = some c) :
    (pulses u t).take (2 * m + 1) = pulses (u.take m) t ++ [Event.out (levelOf c)] := by
  induction u generalizing m with
  | nil => simp at h
  | cons a as ih =>
    cases m with
    | zero =>
      simp at h
      simp [pulses, h]
    | succ m =>
      have h1 : 2 * (m + 1) + 1 = (2 * m + 1) + 1 + 1 := by omega
      have h2 : as[m]? = some c := by simpa using h
      rw [h1]
      simp [pulses, ih m h2]

theorem lineAfter_append (u v : List Char) (l : Option Level) :
    lineAfter (u ++ v) l = lineAfter v (lineAfter u l) := by
  simp [lineAfter]

theorem take_append_ge {α : Type} (u v : List α) (n : Nat) (h : u.length ≤ n) :
    (u ++ v).take n = u ++ v.take (n - u.length) := by
  rw [List.take_append_eq_append_take, List.take_of_length_le h]

/-! ## One frame -/

/-- One iteration of the transmit loop in which no call of `Out` fails. -/
theorem frame_ok (bits : List Char) (d : Int) (pin : Pin) (w : World)
    (hok : ∀ i, w.outs ≤ i → i < w.outs + (frameWord bits).length → pin i = none) :
    frame bits d pin w
      = (⟨w.outs + (frameWord bits).length, lineAfter (frameWord bits) w.line,
          w.trace ++ frameEvents bits d⟩, none) := by
  simp only [frameWord, List.length_append] at hok
  unfold frame send
  rw [sendLoop_ok _ pin _ w (fun i h1 h2 => hok i h1 (by omega))]
  simp only []
  rw [sendLoop_ok _ pin _ _ (fun i h1 h2 => hok i (by simp at h1; omega) (by simp at h2; omega))]
  simp only []
  rw [sendLoop_ok _ pin _ _ (fun i h1 h2 => hok i (by simp at h1; omega) (by simp at h2; omega))]
  simp [frameWord, frameEvents, lineAfter_append, Nat.add_assoc]

/-- One iteration of the transmit loop in which the call of `Out` with index
`j` is the first to fail. -/
theorem frame_fail (bits : List Char) (d : Int) (pin : Pin) (w : World) (j : Nat)
    (e : GoError) (hj1 : w.outs ≤ j) (hj2 : j < w.outs + (frameWord bits).length)
    (hok : ∀ i, w.outs ≤ i → i < j → pin i = none) (hfail : pin j = some e) :
    frame bits d pin w
      = (⟨j + 1, lineAfter ((frameWord bits).take (j - w.outs)) w.line,
          w.trace ++ (frameEvents bits d).take (2 * (j - w.outs) + 1)⟩, some e) := by
  simp only [frameWord, List.length_append] at hj2
  have hp1 := pulses_length (encode ['1', '0', '1']) (wrap64 (d * 2))
  have hp2 := pulses_length (encode bits) d
  unfold frame send
  by_cases h1 : j < w.outs + (encode ['1', '0', '1']).length
  · rw [sendLoop_fail _ pin _ w j e hj1 h1 hok hfail]
    simp only [frameWord, frameEvents, List.append_assoc]
    rw [List.take_append_of_le_length (by omega), List.take_append_of_le_length (by omega)]
  · rw [sendLoop_ok _ pin _ w (fun i h2 h3 => hok i h2 (by omega))]
    simp only []
    by_cases h2 : j < w.outs + (encode ['1', '0', '1']).length + (encode bits).length
    · rw [sendLoop_fail _ pin _ _ j e (by simp; omega) (by simp; omega)
        (fun i h3 h4 => hok i (by simp at h3; omega) h4) hfail]
      simp only [frameWord, frameEvents, List.append_assoc]
      have k1 : List.take (j - w.outs)
            (encode ['1', '0', '1'] ++ (encode bits ++ encode ['1', '0', '1']))
          = encode ['1', '0', '1']
            ++ List.take (j - (w.outs + (encode ['1', '0', '1']).length)) (encode bits) := by
        rw [take_append_ge _ _ _ (by omega), List.take_append_of_le_length (by omega)]
        congr 2
      have k2 : List.take (2 * (j - w.outs) + 1)
            (pulses (encode ['1', '0', '1']) (wrap64 (d * 2))
              ++ (pulses (encode bits) d ++ pulses (encode ['1', '0', '1']) (wrap64 (d * 2))))
          = pulses (encode ['1', '0', '1']) (wrap64 (d * 2))
            ++ List.take (2 * (j - (w.outs + (encode ['1', '0', '1']).length)) + 1)
              (pulses (encode bits) d) := by
        rw [take_append_ge _ _ _ (by omega), List.take_append_of_le_length (by omega)]
        congr 2
        omega
      rw [k1, k2, lineAfter_append]
    · rw [sendLoop_ok _ pin _ _ (fun i h3 h4 => hok i (by simp at h3; omega)
        (by simp at h4; omega))]
      simp only []
      rw [sendLoop_fail _ pin _ _ j e (by simp; omega) (by simp; omega)
        (fun i h3 h4 => hok i (by simp at h3; omega) h4) hfail]
      simp only [frameWord, frameEvents, List.append_assoc]
      have k1 : List.take (j - w.outs)
            (encode ['1', '0', '1'] ++ (encode bits ++ encode ['1', '0', '1']))
          = encode ['1', '0', '1'] ++ (encode bits
            ++ List.take (j - (w.outs + (encode ['1', '0', '1']).length + (encode bits).length))
              (encode ['1', '0', '1'])) := by
        rw [take_append_ge _ _ _ (by omega), take_append_ge _ _ _ (by omega)]
        congr 3
        omega
      have k2 : List.take (2 * (j - w.outs) + 1)
            (pulses (encode ['1', '0', '1']) (wrap64 (d * 2))
              ++ (pulses (encode bits) d ++ pulses (encode ['1', '0', '1']) (wrap64 (d * 2))))
          = pulses (encode ['1', '0', '1']) (wrap64 (d * 2)) ++ (pulses (encode bits) d
            ++ List.take
              (2 * (j - (w.outs + (encode ['1', '0', '1']).length + (encode bits).length)) + 1)
              (pulses (encode ['1', '0', '1']) (wrap64 (d * 2)))) := by
        rw [take_append_ge _ _ _ (by omega), take_append_ge _ _ _ (by omega)]
        congr 3
        omega
      rw [k1, k2, lineAfter_append, lineAfter_append]

theorem even_getElem_append (f : Char → Event) (E1 E2 : List Event) (W1 W2 : List Char)
    (hl : E1.length = 2 * W1.length) (h1 : ∀ k, E1[2 * k]? = (W1[k]?).map f)
    (h2 : ∀ k, E2[2 * k]? = (W2[k]?).map f) (k : Nat) :
    (E1 ++ E2)[2 * k]? = ((W1 ++ W2)[k]?).map f := by
  rw [List.getElem?_append, List.getElem?_append]
  by_cases hk : k < W1.length
  · rw [if_pos hk, if_pos (by omega)]
    exact h1 k
  · rw [if_neg hk, if_neg (by omega), hl, ← Nat.mul_sub]
    exact h2 _

theorem frameEvents_getElem_even (bits : List Char) (d : Int) (k : Nat) :
    (frameEvents bits d)[2 * k]? = ((frameWord bits)[k]?).map (fun c => Event.out (levelOf c)) := by
  unfold frameEvents frameWord
  apply even_getElem_append
  · simp [pulses_length, Nat.mul_add]
  · apply even_getElem_append
    · exact pulses_length _ _
    · exact fun k => (pulses_getElem _ _ k).1
    · exact fun k => (pulses_getElem _ _ k).1
  · exact fun k => (pulses_getElem _ _ k).1

theorem getLast?_take_succ {α : Type} (l : List α) (n : Nat) (x : α) (h : l[n]? = some x) :
    (l.take (n + 1)).getLast? = some x := by
  rw [List.getLast?_take]
  simp [h]

/-! ## The session -/

theorem encode_preamble : encode ['1', '0', '1'] = ['1', '0', '1', '1', '0', '1'] := by
  decide

theorem frameWord_length_pos (bits : List Char) : 0 < (frameWord bits).length := by
  simp [frameWord, encode_preamble]

/-- A session in which the call of `Out` with index `j`, made during frame
number `m` (counted from 0), is the first to fail. -/
theorem transmit_fail (bits : List Char) (d r : Int) (pin : Pin) (m : Nat) :
    ∀ (n : Nat) (w : World) (j : Nat) (e : GoError), m < n → (r ≠ 0 ∨ m = 0) →
      w.outs + m * (frameWord bits).length ≤ j →
      j < w.outs + m * (frameWord bits).length + (frameWord bits).length →
      (∀ i, w.outs ≤ i → i < j → pin i = none) → pin j = some e →
      ∃ l, transmit bits d r pin n w
        = (⟨j + 1, l, w.trace
            ++ (List.replicate m (frameEvents bits d ++ [Event.sleep r])).flatten
            ++ (frameEvents bits d).take
              (2 * (j - w.outs - m * (frameWord bits).length) + 1)⟩, Outcome.fatal e) := by
  induction m with
  | zero =>
    intro n w j e hmn _ h1 h2 hok hfail
    cases n with
    | zero => omega
    | succ n =>
      unfold transmit
      rw [frame_fail bits d pin w j e (by omega) (by omega) hok hfail]
      exact ⟨lineAfter ((frameWord bits).take (j - w.outs)) w.line, by simp⟩
  | succ m ih =>
    intro n w j e hmn hr h1 h2 hok hfail
    have hr0 : r ≠ 0 := by
      rcases hr with h | h
      · exact h
      · omega
    rw [Nat.succ_mul] at h1 h2
    cases n with
    | zero => omega
    | succ n =>
      unfold transmit
      rw [frame_ok bits d pin w (fun i hi1 hi2 => hok i hi1 (by omega))]
      simp only [if_neg hr0]
      obtain ⟨l, hl⟩ := ih n (sleep r ⟨w.outs + (frameWord bits).length,
          lineAfter (frameWord bits) w.line, w.trace ++ frameEvents bits d⟩) j e (by omega)
        (Or.inl hr0) (by simp [sleep]; omega) (by simp [sleep]; omega)
        (fun i hi1 hi2 => hok i (by simp [sleep] at hi1; omega) hi2) hfail
      refine ⟨l, ?_⟩
      rw [hl]
      have e1 : j - (w.outs + (frameWord bits).length) - m * (frameWord bits).length
          = j - w.outs - (m + 1) * (frameWord bits).length := by
        rw [Nat.succ_mul]
        omega
      simp [sleep, List.replicate_succ, e1]

/-- A session without repetition in which no call of `Out` fails. -/
theorem transmit_once (bits : List Char) (d : Int) (pin : Pin) (n : Nat) (w : World)
    (hok : ∀ k, pin k = none) :
    transmit bits d 0 pin (n + 1) w
      = (⟨w.outs + (frameWord bits).length + 1, some Level.Low,
          w.trace ++ frameEvents bits d ++ [Event.out Level.Low]⟩, Outcome.exit0) := by
  unfold transmit
  rw [frame_ok bits d pin w (fun i _ _ => hok i)]
  simp [powerOff, pinOut, hok]

theorem wrap64_double (d : Int) (h1 : -2 ^ 62 ≤ d) (h2 : d < 2 ^ 62) :
    wrap64 (d * 2) = 2 * d := by
  unfold wrap64
  omega

theorem pulses_getLast (u : List Char) (t : Int) (c : Char) (h : u.getLast? = some c) :
    (pulses u t).getLast? = some (Event.sleep t) := by
  rw [List.getLast?_eq_getElem?] at h
  rw [List.getLast?_eq_getElem?, pulses_length]
  have hpos : 0 < u.length := by
    cases u with
    | nil => simp at h
    | cons a as => simp
  have e1 : 2 * u.length - 1 = 2 * (u.length - 1) + 1 := by omega
  rw [e1, (pulses_getElem u t (u.length - 1)).2, h]
  rfl

/-! ## Claims on the pulse train and the session -/

/-- C6 (pulse train of `send`): with a pin whose `Out` never fails,
`send message pause pin` returns nil; the calls it makes are, for each
character of `encode message` in order, one `Out` (HIGH for '1', LOW
otherwise) followed by one `Sleep` of exactly `pause`, so there are
`len(encode(message))` calls of `Out` and as many sleeps; the last call is the
sleep after the last bit, and the line is left at the level of the last
character of `encode message`. -/
theorem send_pulse_train (message : List Char) (pause : Int) (pin : Pin) (w : World)
    (hok : ∀ k, pin k = none) :
    (send message pause pin w).2 = none
    ∧ (send message pause pin w).1.trace = w.trace ++ pulses (encode message) pause
    ∧ (send message pause pin w).1.outs = w.outs + (encode message).length
    ∧ outCalls (send message pause pin w).1.trace = outCalls w.trace + (encode message).length
    ∧ sleepCalls (send message pause pin w).1.trace
        = sleepCalls w.trace + (encode message).length
    ∧ (∀ k c, (encode message)[k]? = some c →
        (pulses (encode message) pause)[2 * k]?
            = some (Event.out (if c = '1' then Level.High else Level.Low))
          ∧ (pulses (encode message) pause)[2 * k + 1]? = some (Event.sleep pause))
    ∧ (∀ c, (encode message).getLast? = some c →
        (send message pause pin w).1.line = some (if c = '1' then Level.High else Level.Low)
          ∧ (send message pause pin w).1.trace.getLast? = some (Event.sleep pause)) := by
  have h := sendLoop_ok pause pin (encode message) w (fun i _ _ => hok i)
  unfold send
  rw [h]
  refine ⟨rfl, rfl, rfl, ?_, ?_, ?_, ?_⟩
  · simp [outCalls_append, outCalls_pulses]
  · simp [sleepCalls_append, sleepCalls_pulses]
  · intro k c hc
    have hp := pulses_getElem (encode message) pause k
    rw [hc] at hp
    exact ⟨hp.1, hp.2⟩
  · intro c hc
    refine ⟨lineAfter_getLast _ _ c hc, ?_⟩
    simp only [List.getLast?_append, pulses_getLast _ pause c hc]
    rfl

/-- Witness of C6: the preamble sent on a pin that never fails. -/
theorem send_pulse_train_witness :
    (send ['1', '0', '1'] 100000000 (fun _ => none) World.init).2 = none
    ∧ (send ['1', '0', '1'] 100000000 (fun _ => none) World.init).1.outs = 0 + 6 :=
  ⟨(send_pulse_train ['1', '0', '1'] 100000000 (fun _ => none) World.init (fun _ => rfl)).1,
    by
      rw [(send_pulse_train ['1', '0', '1'] 100000000 (fun _ => none) World.init
        (fun _ => rfl)).2.2.1, encode_preamble]
      rfl⟩

/-- C7 (failure propagation in `send`): if the k-th call of `Out` made by
`send message pause pin` (k counted from 1, on the k-th character `c` of
`encode message`) is the first to fail, with error `e`, then `send` returns
`e` after exactly k calls of `Out` and k-1 sleeps: the pulses of the first
k-1 characters followed by the failed `Out`, and nothing after it. -/
theorem send_failure (message : List Char) (pause : Int) (pin : Pin) (w : World) (k : Nat)
    (e : GoError) (c : Char) (hk : 1 ≤ k) (hc : (encode message)[k - 1]? = some c)
    (hok : ∀ i, i < k - 1 → pin (w.outs + i) = none)
    (hfail : pin (w.outs + (k - 1)) = some e) :
    (send message pause pin w).2 = some e
    ∧ (send message pause pin w).1.outs = w.outs + k
    ∧ (send message pause pin w).1.trace
        = w.trace ++ pulses ((encode message).take (k - 1)) pause ++ [Event.out (levelOf c)]
    ∧ outCalls (send message pause pin w).1.trace = outCalls w.trace + k
    ∧ sleepCalls (send message pause pin w).1.trace = sleepCalls w.trace + (k - 1) := by
  have hlen : k - 1 < (encode message).length := by
    by_contra hge
    rw [List.getElem?_eq_none (by omega)] at hc
    exact absurd hc (by simp)
  have h := sendLoop_fail pause pin (encode message) w (w.outs + (k - 1)) e (by omega)
    (by omega) (fun i hi1 hi2 => by
      have := hok (i - w.outs) (by omega)
      rwa [show w.outs + (i - w.outs) = i by omega] at this) hfail
  have e1 : w.outs + (k - 1) - w.outs = k - 1 := by omega
  rw [e1, pulses_take _ pause (k - 1) c hc] at h
  unfold send
  rw [h]
  refine ⟨rfl, by simp; omega, by simp, ?_, ?_⟩
  · simp only [outCalls_append, outCalls_pulses, List.length_take]
    have : outCalls [Event.out (levelOf c)] = 1 := rfl
    rw [this]
    omega
  · simp only [sleepCalls_append, sleepCalls_pulses, List.length_take]
    have : sleepCalls [Event.out (levelOf c)] = 0 := rfl
    rw [this]
    omega

/-- Witness of C7: the third call of `Out` fails while the preamble is sent. -/
theorem send_failure_witness :
    (send ['1', '0', '1'] 100000000 (fun i => if i = 2 then some "EIO" else none)
      World.init).2 = some "EIO"
    ∧ (send ['1', '0', '1'] 100000000 (fun i => if i = 2 then some "EIO" else none)
      World.init).1.trace
      = [Event.out Level.High, Event.sleep 100000000, Event.out Level.Low,
          Event.sleep 100000000, Event.out Level.High] := by
  have h := send_failure ['1', '0', '1'] 100000000 (fun i => if i = 2 then some "EIO" else none)
    World.init 3 "EIO" '1' (by decide) (by decide)
    (by intro i hi; have : i ≠ 2 := by omega
        simp [World.init, this])
    (by decide)
  exact ⟨h.1, by rw [h.2.2.1]; decide⟩

/-- C4, as the code has it (frame structure): with a pin whose `Out` never
fails, one iteration of the transmit loop returns no error and its events are
the pulses of `encode "101"`, then those of `encode bits` held for `d` each,
then those of `encode "101"` again; the preamble and trailer are held for
`d*2` computed in `int64`, which is `2*d` whenever `-2^62 ≤ d < 2^62`. -/
theorem frame_structure (bits : List Char) (d : Int) (pin : Pin) (w : World)
    (hok : ∀ k, pin k = none) :
    (frame bits d pin w).2 = none
    ∧ (frame bits d pin w).1.trace
        = w.trace ++ (pulses (encode ['1', '0', '1']) (wrap64 (d * 2))
            ++ pulses (encode bits) d
            ++ pulses (encode ['1', '0', '1']) (wrap64 (d * 2)))
    ∧ (-2 ^ 62 ≤ d → d < 2 ^ 62 →
        (frame bits d pin w).1.trace
          = w.trace ++ (pulses (encode ['1', '0', '1']) (2 * d)
              ++ pulses (encode bits) d
              ++ pulses (encode ['1', '0', '1']) (2 * d))) := by
  have h := frame_ok bits d pin w (fun i _ _ => hok i)
  rw [h]
  refine ⟨rfl, rfl, ?_⟩
  intro h1 h2
  simp only [frameEvents, wrap64_double d h1 h2]

/-- Witness of C4: the frame of payload 100 at 50 ms per bit. -/
theorem frame_structure_witness :
    (frame (sprintf08b 100) 50000000 (fun _ => none) World.init).2 = none :=
  (frame_structure (sprintf08b 100) 50000000 (fun _ => none) World.init (fun _ => rfl)).1

/-- C4 as stated fails: with `duration` = 4611686018428 ms the product
`duration*2` overflows `int64`, and the preamble is not held for `2*d`. -/
theorem frame_structure_counterexample :
    (frame (sprintf08b 100) 4611686018428000000 (fun _ => none) World.init).1.trace
      ≠ World.init.trace ++ (pulses (encode ['1', '0', '1']) (2 * 4611686018428000000)
          ++ pulses (encode (sprintf08b 100)) 4611686018428000000
          ++ pulses (encode ['1', '0', '1']) (2 * 4611686018428000000)) := by
  decide

/-- C8 (idle-safety on completion): with repeat interval 0 and a pin whose
`Out` never fails, the session ends normally after exactly one frame followed
by one call `Out(LOW)` of `powerOff`; that call is the last thing the process
does, and the line is left LOW. -/
theorem session_idle_low (flags : Flags) (pin : Pin) (n : Nat)
    (hrep : flags.flagRepeat = 0) (hok : ∀ k, pin k = none) :
    (main flags pin (n + 1)).2 = Outcome.exit0
    ∧ (main flags pin (n + 1)).1.trace
        = frameEvents (sprintf08b (flags.flagPayload % 256))
            (wrap64 (wrap64 flags.flagCodeWordDuration * 1000000))
          ++ [Event.out Level.Low]
    ∧ (main flags pin (n + 1)).1.trace.getLast? = some (Event.out Level.Low)
    ∧ (main flags pin (n + 1)).1.line = some Level.Low
    ∧ (main flags pin (n + 1)).1.outs
        = (frameWord (sprintf08b (flags.flagPayload % 256))).length + 1 := by
  have hr : wrap64 (wrap64 (flags.flagRepeat : Int) * 1000000) = 0 := by
    rw [hrep]
    decide
  unfold main
  simp only [hr]
  rw [transmit_once _ _ pin n World.init hok]
  simp [World.init]

/-- Witness of C8: the default flags (50 ms, payload 100, no repeat). -/
theorem session_idle_low_witness :
    (main ⟨50, 100, 0⟩ (fun _ => none) 1).2 = Outcome.exit0
    ∧ (main ⟨50, 100, 0⟩ (fun _ => none) 1).1.line = some Level.Low :=
  ⟨(session_idle_low ⟨50, 100, 0⟩ (fun _ => none) 0 rfl (fun _ => rfl)).1,
    (session_idle_low ⟨50, 100, 0⟩ (fun _ => none) 0 rfl (fun _ => rfl)).2.2.2.1⟩

/-- C10 (session failure semantics): if the call of `Out` with index `j` is
the first to fail, with error `e`, and it is made while frame number `m`
(counted from 0) is being sent, then the session halts with `e`; its trace is
the `m` complete frames with their repeat sleeps followed by the events of
the current frame up to the failed `Out` on character `c`, which is the last
event: no further bit, no sleep, no repeat and no `powerOff` follow. -/
theorem session_failure_halts (bits : List Char) (d r : Int) (pin : Pin) (m n : Nat)
    (w : World) (j : Nat) (e : GoError) (hmn : m < n) (hr : r ≠ 0 ∨ m = 0)
    (h1 : w.outs + m * (frameWord bits).length ≤ j)
    (h2 : j < w.outs + m * (frameWord bits).length + (frameWord bits).length)
    (hok : ∀ i, w.outs ≤ i → i < j → pin i = none) (hfail : pin j = some e) :
    (transmit bits d r pin n w).2 = Outcome.fatal e
    ∧ (transmit bits d r pin n w).1.outs = j + 1
    ∧ (transmit bits d r pin n w).1.trace
        = w.trace ++ (List.replicate m (frameEvents bits d ++ [Event.sleep r])).flatten
          ++ (frameEvents bits d).take (2 * (j - w.outs - m * (frameWord bits).length) + 1)
    ∧ ∃ c, (frameWord bits)[j - w.outs - m * (frameWord bits).length]? = some c
        ∧ (transmit bits d r pin n w).1.trace.getLast? = some (Event.out (levelOf c)) := by
  obtain ⟨l, hl⟩ := transmit_fail bits d r pin m n w j e hmn hr h1 h2 hok hfail
  rw [hl]
  refine ⟨rfl, rfl, rfl, ?_⟩
  have hlt : j - w.outs - m * (frameWord bits).length < (frameWord bits).length := by omega
  refine ⟨(frameWord bits)[j - w.outs - m * (frameWord bits).length], ?_, ?_⟩
  · exact List.getElem?_eq_getElem hlt
  · have hev := frameEvents_getElem_even bits d (j - w.outs - m * (frameWord bits).length)
    rw [List.getElem?_eq_getElem hlt] at hev
    have hlast := getLast?_take_succ (frameEvents bits d) _ _ hev
    simp only [List.getLast?_append, hlast]
    rfl

/-- Witness of C10: the eighth call of `Out` fails, in the payload of the
first frame of a session of payload 100. -/
theorem session_failure_halts_witness :
    (transmit (sprintf08b 100) 50000000 0 (fun i => if i = 7 then some "EIO" else none)
      1 World.init).2 = Outcome.fatal "EIO"
    ∧ (transmit (sprintf08b 100) 50000000 0 (fun i => if i = 7 then some "EIO" else none)
      1 World.init).1.outs = 7 + 1 :=
  have h := session_failure_halts (sprintf08b 100) 50000000 0
    (fun i => if i = 7 then some "EIO" else none) 0 1 World.init 7 "EIO" (by decide)
    (Or.inr rfl) (by decide) (by decide)
    (by intro i _ hi; have : i ≠ 7 := by omega
        simp [this])
    (by decide)
  ⟨h.1, h.2.1⟩

/-! ## The layout of the code word -/

theorem layout_length_le (fuel pos : Nat) (rest : List Char) (out : List Nat)
    (h : layout fuel pos rest = some out) : out.length ≤ fuel := by
  induction fuel generalizing pos rest out with
  | zero =>
    cases rest with
    | nil =>
      simp [layout] at h
      subst h
      simp
    | cons c cs => simp [layout] at h
  | succ fuel ih =>
    cases rest with
    | nil =>
      simp [layout] at h
      subst h
      simp
    | cons c cs =>
      unfold layout at h
      split at h
      · cases hrec : layout fuel (pos + 1) (c :: cs) with
        | none => simp [hrec] at h
        | some out1 =>
          simp [hrec] at h
          have := ih _ _ _ hrec
          rw [← h]
          simp
          omega
      · cases hrec : layout fuel (pos + 1) cs with
        | none => simp [hrec] at h
        | some out1 =>
          simp [hrec] at h
          have := ih _ _ _ hrec
          rw [← h]
          simp
          omega

theorem cToB_le_one (c : Char) : cToB c ≤ 1 := by
  unfold cToB
  split <;> omega

theorem layout_le_one (fuel pos : Nat) (rest : List Char) (out : List Nat)
    (h : layout fuel pos rest = some out) : ∀ b ∈ out, b ≤ 1 := by
  induction fuel generalizing pos rest out with
  | zero =>
    cases rest with
    | nil =>
      simp [layout] at h
      subst h
      simp
    | cons c cs => simp [layout] at h
  | succ fuel ih =>
    cases rest with
    | nil =>
      simp [layout] at h
      subst h
      simp
    | cons c cs =>
      unfold layout at h
      split at h
      · cases hrec : layout fuel (pos + 1) (c :: cs) with
        | none => simp [hrec] at h
        | some out1 =>
          simp [hrec] at h
          have := ih _ _ _ hrec
          rw [← h]
          intro b hb
          simp at hb
          rcases hb with hb | hb
          · omega
          · exact this b hb
      · cases hrec : layout fuel (pos + 1) cs with
        | none => simp [hrec] at h
        | some out1 =>
          simp [hrec] at h
          have := ih _ _ _ hrec
          rw [← h]
          intro b hb
          simp at hb
          rcases hb with hb | hb
          · rw [hb]
            exact cToB_le_one c
          · exact this b hb

theorem readFrom_nil {α : Type} (c : Nat → Bool) (d : α) (pos : Nat) :
    readFrom c d pos ([] : List α) = [] := by
  simp [readFrom]

theorem readFrom_cons {α : Type} (c : Nat → Bool) (d : α) (pos : Nat) (b : α) (bs : List α) :
    readFrom c d pos (b :: bs)
      = if c (pos + 1) then readFrom c d (pos + 1) bs else b :: readFrom c d (pos + 1) bs := by
  have htail : List.map (fun p => (b :: bs).getD (p - (pos + 1)) d)
        (List.filter (fun p => !c p) (List.range' (pos + 1 + 1) bs.length))
      = readFrom c d (pos + 1) bs := by
    unfold readFrom
    apply List.map_congr_left
    intro p hp
    have hp1 : pos + 1 + 1 ≤ p := by
      have := (List.mem_filter.mp hp).1
      simp at this
      omega
    have e1 : p - (pos + 1) = (p - (pos + 1 + 1)) + 1 := by omega
    rw [e1]
    rfl
  unfold readFrom
  rw [List.length_cons, List.range'_succ, List.filter_cons]
  by_cases hc : c (pos + 1) = true
  · simp only [hc, Bool.not_true, Bool.false_eq_true, if_false, if_true]
    exact htail
  · have hc1 : c (pos + 1) = false := by simpa using hc
    simp only [hc1, Bool.not_false, if_true, List.map_cons, Bool.false_eq_true, if_false]
    rw [htail, Nat.sub_self]
    rfl

/-- The first loop of `encode` puts the data bits, in order, at the positions
that fail the test of the code. -/
theorem layout_readFrom (fuel pos : Nat) (rest : List Char) (out : List Nat)
    (h : layout fuel pos rest = some out) :
    readFrom isPerfectSquare 0 pos out = rest.map cToB := by
  induction fuel generalizing pos rest out with
  | zero =>
    cases rest with
    | nil =>
      simp [layout] at h
      subst h
      simp [readFrom_nil]
    | cons c cs => simp [layout] at h
  | succ fuel ih =>
    cases rest with
    | nil =>
      simp [layout] at h
      subst h
      simp [readFrom_nil]
    | cons c cs =>
      unfold layout at h
      split at h
      · rename_i hp
        cases hrec : layout fuel (pos + 1) (c :: cs) with
        | none => simp [hrec] at h
        | some out1 =>
          simp [hrec] at h
          rw [← h, readFrom_cons, if_pos hp]
          exact ih _ _ _ hrec
      · rename_i hp
        cases hrec : layout fuel (pos + 1) cs with
        | none => simp [hrec] at h
        | some out1 =>
          simp [hrec] at h
          rw [← h, readFrom_cons, if_neg hp, ih _ _ _ hrec]
          simp

/-! ## The parity loop of `encode` -/

theorem isPerfectSquare_overlap (a b : Nat) (ha : isPerfectSquare (a + 1) = true)
    (hb : isPerfectSquare (b + 1) = true) (h : (a + 1) &&& (b + 1) ≠ 0) : a = b := by
  obtain ⟨j, _, hj⟩ := two_pow_of_isPerfectSquare (a + 1) (by omega) ha
  obtain ⟨k, _, hk⟩ := two_pow_of_isPerfectSquare (b + 1) (by omega) hb
  by_contra hne
  have hjk : j ≠ k := by
    rintro rfl
    omega
  rw [hj, hk] at h
  exact h (two_pow_land_two_pow j k hjk)

theorem parityStep_length (bits : List Nat) (pos : Nat) :
    (parityStep bits pos).length = bits.length := by
  unfold parityStep
  split <;> simp

theorem foldl_parityStep_length (l : List Nat) (bits : List Nat) :
    (l.foldl parityStep bits).length = bits.length := by
  induction l generalizing bits with
  | nil => rfl
  | cons a as ih => simp [List.foldl_cons, ih, parityStep_length]

theorem parityOf_congr (bs bs' : List Nat) (pos : Nat) (hl : bs.length = bs'.length)
    (h : ∀ i, i ≠ pos → (i + 1) &&& (pos + 1) ≠ 0 → bs.getD i 0 = bs'.getD i 0) :
    parityOf bs pos = parityOf bs' pos := by
  unfold parityOf
  rw [hl]
  apply List.foldl_ext
  intro a i _
  by_cases hc : i + 1 ≠ pos + 1 ∧ (i + 1) &&& (pos + 1) ≠ 0
  · rw [if_pos hc, if_pos hc, h i (by omega) hc.2]
  · rw [if_neg hc, if_neg hc]

theorem getD_set (l : List Nat) (n q v : Nat) (hn : n < l.length) :
    (l.set n v).getD q 0 = if q = n then v else l.getD q 0 := by
  simp only [List.getD_eq_getElem?_getD, List.getElem?_set]
  by_cases hq : q = n
  · subst hq
    simp [hn]
  · rw [if_neg (Ne.symm hq), if_neg hq]

/-- The slice after the first `n` iterations of the second loop. -/
theorem parity_upto (bits : List Nat) (n : Nat) (hn : n ≤ bits.length) (q : Nat) :
    ((List.range n).foldl parityStep bits).getD q 0
      = if q < n ∧ isPerfectSquare (q + 1) = true then parityOf bits q else bits.getD q 0 := by
  induction n generalizing q with
  | zero => simp
  | succ n ih =>
    rw [List.range_succ, List.foldl_append]
    simp only [List.foldl_cons, List.foldl_nil]
    have hlen : ((List.range n).foldl parityStep bits).length = bits.length :=
      foldl_parityStep_length _ _
    have hstep : parityStep ((List.range n).foldl parityStep bits) n
        = if isPerfectSquare (n + 1) = true
          then ((List.range n).foldl parityStep bits).set n
            (parityOf ((List.range n).foldl parityStep bits) n)
          else (List.range n).foldl parityStep bits := rfl
    rw [hstep]
    by_cases hp : isPerfectSquare (n + 1) = true
    · rw [if_pos hp]
      have hB : parityOf ((List.range n).foldl parityStep bits) n = parityOf bits n := by
        apply parityOf_congr _ _ n hlen
        intro i hi hov
        rw [ih (by omega) i, if_neg]
        rintro ⟨_, hps⟩
        exact hi (isPerfectSquare_overlap i n hps hp hov)
      rw [getD_set _ _ _ _ (by omega), hB]
      by_cases hq : q = n
      · subst hq
        rw [if_pos rfl, if_pos ⟨by omega, hp⟩]
      · rw [if_neg hq, ih (by omega) q]
        by_cases hc : q < n ∧ isPerfectSquare (q + 1) = true
        · rw [if_pos hc, if_pos ⟨by omega, hc.2⟩]
        · rw [if_neg hc, if_neg]
          rintro ⟨h1, h2⟩
          exact hc ⟨by omega, h2⟩
    · rw [if_neg hp, ih (by omega) q]
      by_cases hc : q < n ∧ isPerfectSquare (q + 1) = true
      · rw [if_pos hc, if_pos ⟨by omega, hc.2⟩]
      · rw [if_neg hc, if_neg]
        rintro ⟨h1, h2⟩
        by_cases hq : q = n
        · subst hq
          exact hp h2
        · exact hc ⟨by omega, h2⟩

theorem parityLoop_length (bits : List Nat) : (parityLoop bits).length = bits.length :=
  foldl_parityStep_length _ _

theorem parityLoop_getD (bits : List Nat) (q : Nat) :
    (parityLoop bits).getD q 0
      = if q < bits.length ∧ isPerfectSquare (q + 1) = true then parityOf bits q
        else bits.getD q 0 :=
  parity_upto bits bits.length (le_refl _) q

/-- After the second loop, every position that passes the test of the code
holds the parity of the final slice. -/
theorem parityLoop_parity (bits : List Nat) (q : Nat) (hq : q < bits.length)
    (hp : isPerfectSquare (q + 1) = true) :
    (parityLoop bits).getD q 0 = parityOf (parityLoop bits) q := by
  rw [parityLoop_getD, if_pos ⟨hq, hp⟩]
  apply parityOf_congr _ _ q (parityLoop_length bits).symm
  intro i hi hov
  rw [parityLoop_getD, if_neg]
  rintro ⟨_, hps⟩
  exact hi (isPerfectSquare_overlap i q hps hp hov)

theorem parityLoop_data (bits : List Nat) (q : Nat) (hp : isPerfectSquare (q + 1) = false) :
    (parityLoop bits).getD q 0 = bits.getD q 0 := by
  rw [parityLoop_getD, if_neg]
  rintro ⟨_, h⟩
  rw [hp] at h
  exact absurd h (by simp)

theorem parityFold_le_one (bits : List Nat) (pos : Nat) (h : ∀ q, bits.getD q 0 ≤ 1)
    (l : List Nat) (a : Nat) (ha : a ≤ 1) :
    l.foldl (fun p i => if i + 1 ≠ pos + 1 ∧ (i + 1) &&& (pos + 1) ≠ 0
      then p ^^^ bits.getD i 0 else p) a ≤ 1 := by
  induction l generalizing a with
  | nil => exact ha
  | cons i is ih =>
    rw [List.foldl_cons]
    apply ih
    split
    · have h1 := h i
      have h2 : a ^^^ bits.getD i 0 < 2 ^ 1 :=
        Nat.xor_lt_two_pow (by omega) (by omega)
      omega
    · exact ha

theorem parityOf_le_one (bits : List Nat) (pos : Nat) (h : ∀ q, bits.getD q 0 ≤ 1) :
    parityOf bits pos ≤ 1 :=
  parityFold_le_one bits pos h _ 0 (by omega)

theorem parityLoop_le_one (bits : List Nat) (h : ∀ q, bits.getD q 0 ≤ 1) (q : Nat) :
    (parityLoop bits).getD q 0 ≤ 1 := by
  rw [parityLoop_getD]
  split
  · exact parityOf_le_one bits q h
  · exact h q

theorem getD_le_one_of_mem (l : List Nat) (h : ∀ b ∈ l, b ≤ 1) (q : Nat) : l.getD q 0 ≤ 1 := by
  by_cases hq : q < l.length
  · rw [List.getD_eq_getElem _ _ hq]
    exact h _ (List.getElem_mem hq)
  · rw [List.getD_eq_default _ _ (by omega)]
    omega

/-! ## The code word -/

/-- The function `encode` never runs out of fuel: its result is the rendering
of the slice left by the two loops. -/
theorem encode_eq (data : List Char) :
    ∃ out, layout (encodeFuel data) 0 data = some out
      ∧ encode data = render (parityLoop out) := by
  obtain ⟨bits, hb⟩ := fillLoop_fuel data
  refine ⟨bits, ?_, ?_⟩
  · rw [← hb, fillLoop_eq_layout]
    simp
  · unfold encode
    rw [hb]

theorem render_length (bits : List Nat) : (render bits).length = bits.length := by
  simp [render]

theorem render_getD (bits : List Nat) (q : Nat) (hq : q < bits.length) :
    (render bits).getD q '0' = Char.ofNat (bits.getD q 0 + 48) := by
  simp [render, List.getD_eq_getElem?_getD, List.getElem?_eq_getElem hq]

theorem cToB_ofNat (b : Nat) (hb : b ≤ 1) : cToB (Char.ofNat (b + 48)) = b := by
  have h : b = 0 ∨ b = 1 := by omega
  rcases h with h | h <;> subst h <;> decide

theorem bitAt_render (bits : List Nat) (h : ∀ q, bits.getD q 0 ≤ 1) (q : Nat) :
    bitAt (render bits) (q + 1) = bits.getD q 0 := by
  unfold bitAt
  rw [Nat.add_sub_cancel]
  by_cases hq : q < bits.length
  · rw [render_getD bits q hq, cToB_ofNat _ (h q)]
  · rw [List.getD_eq_default _ _ (by rw [render_length]; omega),
      List.getD_eq_default _ _ (by omega)]
    decide

theorem xor_filter_map (l : List Nat) (c : Nat → Bool) (f : Nat → Nat) (a : Nat) :
    ((l.filter c).map f).foldl (fun acc b => acc ^^^ b) a
      = l.foldl (fun acc i => if c i = true then acc ^^^ f i else acc) a := by
  induction l generalizing a with
  | nil => rfl
  | cons x xs ih =>
    rw [List.filter_cons]
    by_cases hc : c x = true
    · simp only [hc, if_true, List.map_cons, List.foldl_cons]
      exact ih _
    · simp only [hc, if_false, List.foldl_cons, Bool.false_eq_true]
      exact ih _

theorem coveredXor_render (bits : List Nat) (h : ∀ q, bits.getD q 0 ≤ 1) (pos : Nat) :
    coveredXor (render bits) (pos + 1) = parityOf bits pos := by
  unfold coveredXor parityOf
  rw [xor_filter_map, List.range'_eq_map_range, List.foldl_map, render_length]
  apply List.foldl_ext
  intro a i _
  have e1 : 1 + i = i + 1 := by omega
  rw [e1, bitAt_render bits h i]
  by_cases hc : i + 1 ≠ pos + 1 ∧ (i + 1) &&& (pos + 1) ≠ 0
  · rw [if_pos hc, if_pos (by simpa using hc)]
  · rw [if_neg hc, if_neg (by simpa using hc)]

theorem encode_length_le (data : List Char) : (encode data).length ≤ 2 * data.length + 2 := by
  obtain ⟨out, ho, he⟩ := encode_eq data
  rw [he, render_length, parityLoop_length]
  exact layout_length_le _ _ _ _ ho

/-- The parity equation of the code, at every position of the code word that
passes the test of the code. -/
theorem encode_parity_at (data : List Char) (q : Nat) (hq : q < (encode data).length)
    (hp : isPerfectSquare (q + 1) = true) :
    bitAt (encode data) (q + 1) = coveredXor (encode data) (q + 1) := by
  obtain ⟨out, ho, he⟩ := encode_eq data
  have h1 : ∀ i, out.getD i 0 ≤ 1 := getD_le_one_of_mem out (layout_le_one _ _ _ _ ho)
  have h2 : ∀ i, (parityLoop out).getD i 0 ≤ 1 := parityLoop_le_one out h1
  rw [he, render_length, parityLoop_length] at hq
  rw [he, bitAt_render _ h2, coveredXor_render _ h2]
  exact parityLoop_parity out q hq hp

theorem two_pow_lt_of_le (k n : Nat) (h : 2 ^ k ≤ n) (hn : n < 2 ^ 64) : k < 64 := by
  by_contra hk
  have hle : 2 ^ 64 ≤ 2 ^ k := Nat.pow_le_pow_right (by norm_num) (by omega)
  omega

theorem layout_eight (a b c d e f g h : Char) :
    layout 18 0 [a, b, c, d, e, f, g, h]
      = some [0, 0, cToB a, 0, cToB b, cToB c, cToB d, 0, cToB e, cToB f, cToB g, cToB h] := by
  rfl

theorem length_eight (data : List Char) (hlen : data.length = 8) :
    ∃ a b c d e f g h, data = [a, b, c, d, e, f, g, h] := by
  match data, hlen with
  | [a, b, c, d, e, f, g, h], _ => exact ⟨a, b, c, d, e, f, g, h, rfl⟩

theorem encode_length_eight (data : List Char) (hlen : data.length = 8) :
    (encode data).length = 12 := by
  obtain ⟨a, b, c, d, e, f, g, h, rfl⟩ := length_eight data hlen
  obtain ⟨out, ho, he⟩ := encode_eq [a, b, c, d, e, f, g, h]
  have hl : layout (encodeFuel [a, b, c, d, e, f, g, h]) 0 [a, b, c, d, e, f, g, h]
      = layout 18 0 [a, b, c, d, e, f, g, h] := rfl
  rw [hl, layout_eight] at ho
  rw [he, render_length, parityLoop_length]
  injection ho with ho
  rw [← ho]
  rfl

set_option maxRecDepth 100000 in
theorem sprintf08b_length : ∀ v, v < 256 → (sprintf08b v).length = 8 := by
  decide

/-- The code word read at the positions that fail the test of the code is the
data, each byte rendered as the bit `cToB` reads in it. -/
theorem encode_readFrom (data : List Char) :
    readFrom isPerfectSquare '0' 0 (encode data)
      = data.map (fun c => Char.ofNat (cToB c + 48)) := by
  obtain ⟨out, ho, he⟩ := encode_eq data
  have hread := layout_readFrom _ _ _ _ ho
  have hmap : data.map (fun c => Char.ofNat (cToB c + 48))
      = (data.map cToB).map (fun b => Char.ofNat (b + 48)) := by
    simp [List.map_map, Function.comp_def]
  rw [hmap, ← hread, he]
  unfold readFrom
  rw [render_length, parityLoop_length, List.map_map]
  apply List.map_congr_left
  intro p hp
  have hp1 := List.mem_filter.mp hp
  have hr : 0 + 1 ≤ p ∧ p < 0 + 1 + out.length := by simpa using hp1.1
  have hps : isPerfectSquare (p - (0 + 1) + 1) = false := by
    have e1 : p - (0 + 1) + 1 = p := by omega
    rw [e1]
    simpa using hp1.2
  simp only [Function.comp_apply]
  rw [render_getD _ _ (by rw [parityLoop_length]; omega), parityLoop_data _ _ hps]

/-! ## Claims on the code word -/

/-- C1 (parity correctness of `encode`): for every input (short enough for
its positions to be Go `int`s) and every power-of-two position `2^k` within
the code word, the bit stored there equals the XOR of the bits of the code
word at all positions `i` with `i ≠ 2^k` and `i AND 2^k ≠ 0`; for 8-character
inputs this holds at positions 1, 2, 4 and 8. -/
theorem encode_parity_correct (data : List Char) (k : Nat) (hlen : data.length < 2 ^ 62)
    (hk : 2 ^ k ≤ (encode data).length) :
    bitAt (encode data) (2 ^ k) = coveredXor (encode data) (2 ^ k)
    ∧ (data.length = 8 →
        ∀ p ∈ [1, 2, 4, 8], bitAt (encode data) p = coveredXor (encode data) p) := by
  have hN := encode_length_le data
  constructor
  · have hk64 : k < 64 := two_pow_lt_of_le k _ hk (by omega)
    have hpos : 1 ≤ 2 ^ k := Nat.one_le_two_pow
    have e1 : 2 ^ k - 1 + 1 = 2 ^ k := by omega
    have h := encode_parity_at data (2 ^ k - 1) (by omega)
      (by rw [e1]; exact isPerfectSquare_two_pow k hk64)
    rw [e1] at h
    exact h
  · intro h8 p hp
    have h12 := encode_length_eight data h8
    simp only [List.mem_cons, List.mem_singleton, List.not_mem_nil, or_false] at hp
    rcases hp with rfl | rfl | rfl | rfl
    · exact encode_parity_at data 0 (by omega) (by decide)
    · exact encode_parity_at data 1 (by omega) (by decide)
    · exact encode_parity_at data 3 (by omega) (by decide)
    · exact encode_parity_at data 7 (by omega) (by decide)

/-- Witness of C1: position 8 of the code word of payload 100. -/
theorem encode_parity_correct_witness :
    bitAt (encode (sprintf08b 100)) (2 ^ 3) = coveredXor (encode (sprintf08b 100)) (2 ^ 3) :=
  (encode_parity_correct (sprintf08b 100) 3 (by decide) (by decide)).1

/-- C2 (fixed expansion ratio): every 8-character input, in particular the
rendering of a payload byte, is encoded to exactly 12 characters; the
positions of the code word the code treats as parity positions are 1, 2, 4
and 8, the powers of two up to 12, and the other eight positions carry the
data bits in order. -/
theorem encode_fixed_expansion (data : List Char) (hlen : data.length = 8) :
    (encode data).length = 12
    ∧ (List.range' 1 12).filter isPerfectSquare = [1, 2, 4, 8]
    ∧ (List.range' 1 12).filter powerOfTwo = [1, 2, 4, 8]
    ∧ readFrom isPerfectSquare '0' 0 (encode data)
        = data.map (fun c => Char.ofNat (cToB c + 48))
    ∧ ∀ v, (encode (sprintf08b (v % 256))).length = 12 := by
  refine ⟨encode_length_eight data hlen, by decide, by decide, encode_readFrom data, ?_⟩
  intro v
  exact encode_length_eight _ (sprintf08b_length _ (Nat.mod_lt _ (by norm_num)))

/-- Witness of C2: the rendering of payload 100. -/
theorem encode_fixed_expansion_witness : (encode (sprintf08b 100)).length = 12 :=
  (encode_fixed_expansion (sprintf08b 100) (by decide)).1

/-- C5, as the code has it (frame sub-sequence lengths): `encode "101"` is the
6-character word "101101" and the code word of a payload byte has 12
characters, so with a pin that never fails one frame is 6 pulses of preamble,
12 pulses of payload and 6 pulses of trailer: 24 calls of `Out`. -/
theorem frame_pulse_counts (v : Nat) (d : Int) (pin : Pin) (w : World)
    (hok : ∀ k, pin k = none) :
    encode ['1', '0', '1'] = ['1', '0', '1', '1', '0', '1']
    ∧ (encode (sprintf08b (v % 256))).length = 12
    ∧ (frame (sprintf08b (v % 256)) d pin w).1.trace
        = w.trace ++ (pulses ['1', '0', '1', '1', '0', '1'] (wrap64 (d * 2))
            ++ pulses (encode (sprintf08b (v % 256))) d
            ++ pulses ['1', '0', '1', '1', '0', '1'] (wrap64 (d * 2)))
    ∧ outCalls (frame (sprintf08b (v % 256)) d pin w).1.trace = outCalls w.trace + 24
    ∧ (frame (sprintf08b (v % 256)) d pin w).1.outs = w.outs + 24 := by
  have h12 : (encode (sprintf08b (v % 256))).length = 12 :=
    encode_length_eight _ (sprintf08b_length _ (Nat.mod_lt _ (by norm_num)))
  have h := frame_ok (sprintf08b (v % 256)) d pin w (fun i _ _ => hok i)
  rw [h]
  refine ⟨encode_preamble, h12, ?_, ?_, ?_⟩
  · simp only [frameEvents, encode_preamble]
  · simp only [frameEvents, outCalls_append, outCalls_pulses, h12, encode_preamble]
    rfl
  · simp only [frameWord, List.length_append, h12, encode_preamble]
    rfl

/-- Witness of C5: the frame of payload 100 at 50 ms per bit. -/
theorem frame_pulse_counts_witness :
    (frame (sprintf08b (100 % 256)) 50000000 (fun _ => none) World.init).1.outs
      = World.init.outs + 24 :=
  (frame_pulse_counts 100 50000000 (fun _ => none) World.init (fun _ => rfl)).2.2.2.2

/-- C5 as stated fails: the code word of the preamble "101" has 6 characters,
not 12, and a frame makes 24 calls of `Out`, not 36. -/
theorem frame_pulse_counts_counterexample :
    (encode ['1', '0', '1']).length ≠ 12
    ∧ outCalls (frame (sprintf08b 100) 50000000 (fun _ => none) World.init).1.trace ≠ 36 := by
  decide

theorem powerOfTwo_iff (n : Nat) : powerOfTwo n = true ↔ ∃ k, n = 2 ^ k := by
  unfold powerOfTwo
  rw [List.any_eq_true]
  constructor
  · rintro ⟨k, _, hk⟩
    exact ⟨k, by simpa using hk⟩
  · rintro ⟨k, hk⟩
    refine ⟨k, ?_, by simpa using hk⟩
    rw [List.mem_range, hk]
    exact Nat.lt_two_pow k

theorem isPerfectSquare_eq_powerOfTwo (p : Nat) (h0 : 0 < p) (hp : p < 2 ^ 64) :
    isPerfectSquare p = powerOfTwo p := by
  rw [Bool.eq_iff_iff, isPerfectSquare_iff p h0 hp, powerOfTwo_iff]

theorem readFrom_congr {α : Type} (c c' : Nat → Bool) (d : α) (pos : Nat) (l : List α)
    (h : ∀ p, pos + 1 ≤ p → p < pos + 1 + l.length → c p = c' p) :
    readFrom c d pos l = readFrom c' d pos l := by
  unfold readFrom
  congr 1
  apply List.filter_congr
  intro p hp
  have hr : pos + 1 ≤ p ∧ p < pos + 1 + l.length := by simpa using hp
  rw [h p hr.1 hr.2]

theorem ofNat_cToB (c : Char) (h : c = '0' ∨ c = '1') : Char.ofNat (cToB c + 48) = c := by
  rcases h with h | h <;> subst h <;> decide

/-- The characters of the code word at the positions that are not powers of
two, in order, for an input whose positions are Go `int`s. -/
theorem encode_nonParityChars (data : List Char) (hlen : data.length < 2 ^ 62) :
    nonParityChars (encode data) = data.map (fun c => Char.ofNat (cToB c + 48)) := by
  have hN := encode_length_le data
  rw [← encode_readFrom data]
  unfold nonParityChars
  apply readFrom_congr
  intro p h1 h2
  exact (isPerfectSquare_eq_powerOfTwo p (by omega) (by omega)).symm

/-- C3 (data placement in `encode`): for every input over {'0','1'} (short
enough for its positions to be Go `int`s), the characters of the code word at
the positions that are not powers of two, read in increasing position order,
are exactly the input; hence two such inputs with the same code word are
equal. -/
theorem encode_data_placement (data data' : List Char)
    (hlen : data.length < 2 ^ 62) (hlen' : data'.length < 2 ^ 62)
    (hbits : ∀ c ∈ data, c = '0' ∨ c = '1') (hbits' : ∀ c ∈ data', c = '0' ∨ c = '1') :
    nonParityChars (encode data) = data
    ∧ (encode data = encode data' → data = data') := by
  have hid : ∀ (l : List Char), (∀ c ∈ l, c = '0' ∨ c = '1') →
      l.map (fun c => Char.ofNat (cToB c + 48)) = l := by
    intro l hl
    conv_rhs => rw [← List.map_id l]
    apply List.map_congr_left
    intro c hc
    exact ofNat_cToB c (hl c hc)
  have h1 : nonParityChars (encode data) = data := by
    rw [encode_nonParityChars data hlen, hid data hbits]
  have h2 : nonParityChars (encode data') = data' := by
    rw [encode_nonParityChars data' hlen', hid data' hbits']
  refine ⟨h1, ?_⟩
  intro he
  rw [← h1, ← h2, he]

/-- Witness of C3: the renderings of payloads 100 and 101. -/
theorem encode_data_placement_witness :
    nonParityChars (encode (sprintf08b 100)) = sprintf08b 100
    ∧ (encode (sprintf08b 100) = encode (sprintf08b 101) → sprintf08b 100 = sprintf08b 101) :=
  encode_data_placement (sprintf08b 100) (sprintf08b 101) (by decide) (by decide)
    (by decide) (by decide)

/-! ## Single-bit errors -/

theorem foldl_xor_init (l : List Nat) (a b : Nat) :
    l.foldl (fun acc x => acc ^^^ x) (a ^^^ b) = l.foldl (fun acc x => acc ^^^ x) a ^^^ b := by
  induction l generalizing a with
  | nil => rfl
  | cons x xs ih =>
    simp only [List.foldl_cons]
    rw [Nat.xor_assoc, Nat.xor_comm b x, ← Nat.xor_assoc]
    exact ih _

theorem xor_flip (L : List Nat) (f g : Nat → Nat) (j : Nat) (hnd : L.Nodup) (hj : j ∈ L)
    (hne : ∀ i ∈ L, i ≠ j → g i = f i) (hflip : g j = f j ^^^ 1) (a : Nat) :
    (L.map g).foldl (fun acc x => acc ^^^ x) a
      = (L.map f).foldl (fun acc x => acc ^^^ x) a ^^^ 1 := by
  induction L generalizing a with
  | nil => simp at hj
  | cons x xs ih =>
    rw [List.nodup_cons] at hnd
    simp only [List.map_cons, List.foldl_cons]
    by_cases hx : x = j
    · subst hx
      have hxs : xs.map g = xs.map f := by
        apply List.map_congr_left
        intro i hi
        exact hne i (List.mem_cons_of_mem _ hi) (by rintro rfl; exact hnd.1 hi)
      rw [hxs, hflip, ← Nat.xor_assoc, foldl_xor_init]
    · have hj' : j ∈ xs := by
        rcases List.mem_cons.mp hj with h | h
        · exact absurd h.symm hx
        · exact h
      rw [hne x (List.mem_cons_self _ _) hx]
      exact ih hnd.2 hj' (fun i hi => hne i (List.mem_cons_of_mem _ hi)) _

theorem flipAt_length (w : List Char) (j : Nat) : (flipAt w j).length = w.length := by
  simp [flipAt]

theorem cToB_flipChar (c : Char) : cToB (flipChar c) = cToB c ^^^ 1 := by
  unfold flipChar
  by_cases h : c = '1'
  · subst h
    decide
  · rw [if_neg h]
    unfold cToB
    rw [if_neg h]
    decide

theorem bitAt_flipAt_ne (w : List Char) (j i : Nat) (hj : 1 ≤ j) (hi : 1 ≤ i) (hij : i ≠ j) :
    bitAt (flipAt w j) i = bitAt w i := by
  unfold bitAt flipAt
  simp only [List.getD_eq_getElem?_getD]
  rw [List.getElem?_set_ne (by omega)]

theorem bitAt_flipAt_self (w : List Char) (j : Nat) (hj1 : 1 ≤ j) (hj2 : j ≤ w.length) :
    bitAt (flipAt w j) j = bitAt w j ^^^ 1 := by
  unfold bitAt flipAt
  simp only [List.getD_eq_getElem?_getD]
  rw [List.getElem?_set_self (by omega)]
  exact cToB_flipChar _

theorem coveredXor_flipAt_out (w : List Char) (j p : Nat) (hj1 : 1 ≤ j)
    (hout : j = p ∨ j &&& p = 0) : coveredXor (flipAt w j) p = coveredXor w p := by
  unfold coveredXor
  rw [flipAt_length]
  congr 1
  apply List.map_congr_left
  intro i hi
  have hi1 := List.mem_filter.mp hi
  have hr : 1 ≤ i ∧ i < 1 + w.length := by simpa using hi1.1
  have hc : i ≠ p ∧ i &&& p ≠ 0 := by simpa using hi1.2
  apply bitAt_flipAt_ne w j i hj1 hr.1
  rintro rfl
  rcases hout with h | h
  · exact hc.1 h
  · exact hc.2 h

theorem coveredXor_flipAt_in (w : List Char) (j p : Nat) (hj1 : 1 ≤ j) (hj2 : j ≤ w.length)
    (hjp : j ≠ p) (hand : j &&& p ≠ 0) :
    coveredXor (flipAt w j) p = coveredXor w p ^^^ 1 := by
  unfold coveredXor
  rw [flipAt_length]
  apply xor_flip _ _ _ j
  · exact List.Nodup.filter _ (List.nodup_range' 1 w.length)
  · rw [List.mem_filter]
    refine ⟨by simp; omega, by simpa using ⟨hjp, hand⟩⟩
  · intro i hi hij
    have hi1 := List.mem_filter.mp hi
    have hr : 1 ≤ i ∧ i < 1 + w.length := by simpa using hi1.1
    exact bitAt_flipAt_ne w j i hj1 hr.1 hij
  · exact bitAt_flipAt_self w j hj1 hj2

theorem xor_one_ne (x : Nat) : x ^^^ 1 ≠ x := by
  intro h
  have h1 : x ^^^ (x ^^^ 1) = x ^^^ x := by rw [h]
  rw [← Nat.xor_assoc, Nat.xor_self, Nat.zero_xor] at h1
  exact absurd h1 (by decide)

/-- On a code word with one flipped bit, the parity equation of a
power-of-two position fails exactly when the position is a binary digit of
the index of the flipped bit. -/
theorem parityFails_flipAt (data : List Char) (j k : Nat) (hlen : data.length < 2 ^ 62)
    (hj1 : 1 ≤ j) (hj2 : j ≤ (encode data).length) (hk : 2 ^ k ≤ (encode data).length) :
    parityFails (flipAt (encode data) j) (2 ^ k) = true ↔ j.testBit k = true := by
  have hC1 := (encode_parity_at data (2 ^ k - 1) (by
      have := @Nat.one_le_two_pow k
      omega) (by
      have := @Nat.one_le_two_pow k
      have hN := encode_length_le data
      rw [show 2 ^ k - 1 + 1 = 2 ^ k by omega]
      exact isPerfectSquare_two_pow k (two_pow_lt_of_le k _ hk (by omega))))
  rw [show 2 ^ k - 1 + 1 = 2 ^ k by
    have := @Nat.one_le_two_pow k
    omega] at hC1
  have hpos : 1 ≤ 2 ^ k := Nat.one_le_two_pow
  unfold parityFails
  rw [bne_iff_ne, ← land_two_pow_ne_zero]
  by_cases hjp : j = 2 ^ k
  · rw [coveredXor_flipAt_out _ j _ hj1 (Or.inl hjp), ← hjp, bitAt_flipAt_self _ j hj1 hj2,
      hjp, ← hC1]
    constructor
    · intro _
      rw [Nat.and_self]
      omega
    · intro _
      exact xor_one_ne _
  · rw [bitAt_flipAt_ne _ j _ hj1 hpos (Ne.symm hjp)]
    by_cases hand : j &&& 2 ^ k = 0
    · rw [coveredXor_flipAt_out _ j _ hj1 (Or.inr hand), hC1]
      constructor
      · intro h
        exact absurd rfl h
      · intro h
        exact absurd hand h
    · rw [coveredXor_flipAt_in _ j _ hj1 hj2 hjp hand, hC1]
      constructor
      · intro _
        exact hand
      · intro _
        exact (xor_one_ne _).symm

theorem sum_bits (n : Nat) : ∀ j, j < 2 ^ n →
    (((List.range n).filter (fun k => j.testBit k)).map (fun k => 2 ^ k)).sum = j := by
  induction n with
  | zero =>
    intro j hj
    simp at hj
    simp [hj]
  | succ n ih =>
    intro j hj
    have hlow : (List.range n).filter (fun k => j.testBit k)
        = (List.range n).filter (fun k => (j % 2 ^ n).testBit k) := by
      apply List.filter_congr
      intro k hk
      rw [Nat.testBit_mod_two_pow]
      simp [List.mem_range.mp hk]
    have hrec := ih (j % 2 ^ n) (Nat.mod_lt _ (by positivity))
    rw [← hlow] at hrec
    rw [List.range_succ, List.filter_append, List.map_append, List.sum_append, hrec]
    have hq : j / 2 ^ n < 2 := Nat.div_lt_of_lt_mul (by rw [pow_succ] at hj; omega)
    have hdm := Nat.div_add_mod j (2 ^ n)
    have hq01 : j / 2 ^ n = 0 ∨ j / 2 ^ n = 1 := by
      generalize j / 2 ^ n = q at hq
      omega
    rcases hq01 with h0 | h1
    · have hb : j.testBit n = false := by
        rw [Nat.testBit_to_div_mod, h0]
        decide
      rw [h0] at hdm
      simp [List.filter_cons, hb]
      omega
    · have hb : j.testBit n = true := by
        rw [Nat.testBit_to_div_mod, h1]
        decide
      rw [h1] at hdm
      simp [List.filter_cons, hb]
      omega

/-- C9 (single-bit errors are located): take the code word of any input
(short enough for its positions to be Go `int`s) and flip its bit at position
`j`, `1 ≤ j ≤ len`.  Then the parity equation of a power-of-two position `2^k`
within the word fails exactly when `2^k` is a binary digit of `j`; every
binary digit of `j` is such a position; and the failing parity positions sum
to `j`. -/
theorem single_error_located (data : List Char) (j : Nat) (hlen : data.length < 2 ^ 62)
    (hj1 : 1 ≤ j) (hj2 : j ≤ (encode data).length) :
    (∀ k, 2 ^ k ≤ (encode data).length →
      (parityFails (flipAt (encode data) j) (2 ^ k) = true ↔ j.testBit k = true))
    ∧ (∀ k, j.testBit k = true → 2 ^ k ≤ (encode data).length)
    ∧ syndrome (flipAt (encode data) j) = j := by
  have hdigit : ∀ k, j.testBit k = true → 2 ^ k ≤ (encode data).length := by
    intro k hk
    have := Nat.testBit_implies_ge hk
    omega
  refine ⟨fun k hk => parityFails_flipAt data j k hlen hj1 hj2 hk, hdigit, ?_⟩
  unfold syndrome
  rw [flipAt_length]
  have hfilter : (List.range (encode data).length).filter
        (fun k => decide (2 ^ k ≤ (encode data).length)
          && parityFails (flipAt (encode data) j) (2 ^ k))
      = (List.range (encode data).length).filter (fun k => j.testBit k) := by
    apply List.filter_congr
    intro k _
    by_cases hk : 2 ^ k ≤ (encode data).length
    · rw [Bool.eq_iff_iff]
      simp only [Bool.and_eq_true, decide_eq_true_eq]
      rw [parityFails_flipAt data j k hlen hj1 hj2 hk]
      exact ⟨fun h => h.2, fun h => ⟨hk, h⟩⟩
    · have hb : j.testBit k = false := Nat.testBit_lt_two_pow (by omega)
      rw [hb]
      simp [hk]
  rw [hfilter]
  apply sum_bits
  have := Nat.lt_two_pow (encode data).length
  omega

/-- Witness of C9: bit 5 of the code word of payload 100 flipped. -/
theorem single_error_located_witness :
    syndrome (flipAt (encode (sprintf08b 100)) 5) = 5 :=
  (single_error_located (sprintf08b 100) 5 (by decide) (by decide) (by decide)).2.2

/-! ## Further claims on the code word -/

theorem mem_le_one_of_getD (l : List Nat) (h : ∀ q, l.getD q 0 ≤ 1) : ∀ b ∈ l, b ≤ 1 := by
  intro b hb
  obtain ⟨i, hi, rfl⟩ := List.getElem_of_mem hb
  have := h i
  rwa [List.getD_eq_getElem _ _ hi] at this

/-- C16 (output alphabet of `encode`): whatever the characters of the input,
the first loop ends with a slice of bits, every entry of the slice after the
parity loop is 0 or 1, and every character of `encode data` is '0' or
'1'. -/
theorem encode_alphabet (data : List Char) :
    (∃ bits, fillLoop data (encodeFuel data) 0 0 [] = some bits
      ∧ encode data = render (parityLoop bits)
      ∧ ∀ b ∈ parityLoop bits, b = 0 ∨ b = 1)
    ∧ ∀ c ∈ encode data, c = '0' ∨ c = '1' := by
  obtain ⟨out, ho, he⟩ := encode_eq data
  have h1 : ∀ i, out.getD i 0 ≤ 1 := getD_le_one_of_mem out (layout_le_one _ _ _ _ ho)
  have h2 : ∀ b ∈ parityLoop out, b ≤ 1 :=
    mem_le_one_of_getD _ (parityLoop_le_one out h1)
  have hfill : fillLoop data (encodeFuel data) 0 0 [] = some out := by
    rw [fillLoop_eq_layout]
    simpa using ho
  refine ⟨⟨out, hfill, he, fun b hb => by have := h2 b hb; omega⟩, ?_⟩
  intro c hc
  rw [he] at hc
  unfold render at hc
  obtain ⟨b, hb, rfl⟩ := List.mem_map.mp hc
  have h01 : b = 0 ∨ b = 1 := by have := h2 b hb; omega
  rcases h01 with h | h <;> subst h
  · left
    decide
  · right
    decide

theorem cToB_asBit (c : Char) : cToB (asBit c) = cToB c := by
  unfold asBit
  by_cases h : c = '1'
  · rw [if_pos h, h]
  · rw [if_neg h]
    unfold cToB
    rw [if_neg h]
    decide

theorem layout_asBit (fuel pos : Nat) (rest : List Char) :
    layout fuel pos (rest.map asBit) = layout fuel pos rest := by
  induction fuel generalizing pos rest with
  | zero =>
    cases rest with
    | nil => rfl
    | cons c cs => rfl
  | succ fuel ih =>
    cases rest with
    | nil => rfl
    | cons c cs =>
      simp only [List.map_cons]
      unfold layout
      have h1 := ih (pos + 1) (c :: cs)
      simp only [List.map_cons] at h1
      rw [h1, ih (pos + 1) cs, cToB_asBit]

theorem encode_of_layout (data : List Char) (out : List Nat)
    (h : layout (encodeFuel data) 0 data = some out) : encode data = render (parityLoop out) := by
  unfold encode
  rw [fillLoop_eq_layout]
  simp only [List.drop_zero]
  rw [h]

/-- C19 (no validation in `encode`): every byte other than '1' is read as a 0
bit, so `encode data` is the code word of `data` with each such byte replaced
by '0'. -/
theorem encode_asBit (data : List Char) : encode data = encode (data.map asBit) := by
  obtain ⟨out, ho, he⟩ := encode_eq data
  have hfuel : encodeFuel (data.map asBit) = encodeFuel data := by
    simp [encodeFuel]
  have h2 : layout (encodeFuel (data.map asBit)) 0 (data.map asBit) = some out := by
    rw [hfuel, layout_asBit, ho]
  rw [he, encode_of_layout _ _ h2]

/-- C20 (what `isPerfectSquare` checks): the claim that `isPerfectSquare n`
holds exactly when `n = k*k` is broken by the code in both directions: 2
passes the test and is not a square, 9 is a square and does not pass. -/
theorem isPerfectSquare_not_square_test :
    (isPerfectSquare 2 = true ∧ ¬ ∃ k, 2 = k * k)
    ∧ (isPerfectSquare 9 = false ∧ 9 = 3 * 3) := by
  refine ⟨⟨by decide, ?_⟩, by decide, by decide⟩
  rintro ⟨k, hk⟩
  have hk2 : k < 2 := by
    by_contra h
    have : 2 * 2 ≤ k * k := Nat.mul_le_mul (by omega) (by omega)
    omega
  interval_cases k <;> omega

/-! ## The payload -/

set_option maxRecDepth 100000 in
theorem sprintf08b_bits : ∀ v, v < 256 → ∀ c ∈ sprintf08b v, c = '0' ∨ c = '1' := by
  decide

set_option maxRecDepth 100000 in
theorem sprintf08b_value : ∀ v, v < 256 → binValue (sprintf08b v) = v := by
  decide

/-- C13 (payload rendering): for every payload value `v` in 0..255 the bit
string `main` hands to `encode` and `send` has exactly 8 characters, each '0'
or '1', and read as a binary number, most significant bit first, it is `v`;
for 100 it is "01100100". -/
theorem payload_rendering (v : Nat) (hv : v < 256) :
    (sprintf08b v).length = 8
    ∧ (∀ c ∈ sprintf08b v, c = '0' ∨ c = '1')
    ∧ binValue (sprintf08b v) = v
    ∧ sprintf08b 100 = ['0', '1', '1', '0', '0', '1', '0', '0'] :=
  ⟨sprintf08b_length v hv, sprintf08b_bits v hv, sprintf08b_value v hv, by decide⟩

/-- Witness of C13: the payload 5, rendered with five leading zeros. -/
theorem payload_rendering_witness :
    (sprintf08b 5).length = 8 ∧ binValue (sprintf08b 5) = 5 :=
  ⟨(payload_rendering 5 (by decide)).1, (payload_rendering 5 (by decide)).2.2.1⟩

/-- C18 (out-of-range payloads wrap): the session of a flag value `v` is the
session of the byte `v mod 256`; hence `v` and `v + 256` give the same
session, and 356 is sent as 100. -/
theorem payload_wraps (d v r : Nat) (pin : Pin) (n : Nat) :
    main ⟨d, v, r⟩ pin n = main ⟨d, v % 256, r⟩ pin n
    ∧ main ⟨d, v + 256, r⟩ pin n = main ⟨d, v, r⟩ pin n
    ∧ main ⟨d, 356, r⟩ pin n = main ⟨d, 100, r⟩ pin n
    ∧ main ⟨d, v, r⟩ pin n
        = transmit (sprintf08b (v % 256)) (wrap64 (wrap64 d * 1000000))
            (wrap64 (wrap64 r * 1000000)) pin n World.init := by
  refine ⟨?_, ?_, ?_, rfl⟩
  · simp only [main, Nat.mod_mod]
  · simp only [main, Nat.add_mod_right]
  · have h : (356 : Nat) % 256 = 100 % 256 := by decide
    simp only [main, h]

/-! ## Iterations of the first loop -/

/-- The first loop spends exactly one unit of fuel per entry it appends: it
ends with `out` on any fuel from `out.length` on, and on no smaller one. -/
theorem layout_fuel_exact (fuel pos : Nat) (rest : List Char) (out : List Nat)
    (h : layout fuel pos rest = some out) (fuel' : Nat) :
    layout fuel' pos rest = if out.length ≤ fuel' then some out else none := by
  induction fuel generalizing pos rest out fuel' with
  | zero =>
    cases rest with
    | nil =>
      simp [layout] at h
      subst h
      simp [layout]
    | cons c cs => simp [layout] at h
  | succ fuel ih =>
    cases rest with
    | nil =>
      simp [layout] at h
      subst h
      simp [layout]
    | cons c cs =>
      unfold layout at h
      split at h
      · rename_i hp
        cases hrec : layout fuel (pos + 1) (c :: cs) with
        | none => simp [hrec] at h
        | some out1 =>
          simp [hrec] at h
          subst h
          cases fuel' with
          | zero => simp [layout]
          | succ f =>
            unfold layout
            rw [if_pos hp, ih _ _ _ hrec f]
            by_cases hf : out1.length ≤ f
            · simp [hf]
            · simp [hf]
      · rename_i hp
        cases hrec : layout fuel (pos + 1) cs with
        | none => simp [hrec] at h
        | some out1 =>
          simp [hrec] at h
          subst h
          cases fuel' with
          | zero => simp [layout]
          | succ f =>
            unfold layout
            rw [if_neg hp, ih _ _ _ hrec f]
            by_cases hf : out1.length ≤ f
            · simp [hf]
            · simp [hf]

/-- C12 (totality of `encode`): for every input the first loop of `encode`
ends, with a slice as long as the code word, and `encode` returns its
rendering after the parity loop; the loop takes exactly `len(encode(data))`
iterations (it ends on that many units of fuel or more, always with the same
slice, and on no fewer), and the data index advances at exactly `len(data)` of
them, the positions that fail the test of the code. -/
theorem encode_total (data : List Char) :
    (∃ bits, fillLoop data (encodeFuel data) 0 0 [] = some bits
      ∧ encode data = render (parityLoop bits)
      ∧ bits.length = (encode data).length)
    ∧ (∀ fuel, (encode data).length ≤ fuel →
        fillLoop data fuel 0 0 [] = fillLoop data (encodeFuel data) 0 0 [])
    ∧ (∀ fuel, fuel < (encode data).length → fillLoop data fuel 0 0 [] = none)
    ∧ (readFrom isPerfectSquare '0' 0 (encode data)).length = data.length := by
  obtain ⟨out, ho, he⟩ := encode_eq data
  have hfill : fillLoop data (encodeFuel data) 0 0 [] = some out := by
    rw [fillLoop_eq_layout]
    simpa using ho
  have hN : (encode data).length = out.length := by
    rw [he, render_length, parityLoop_length]
  refine ⟨⟨out, hfill, he, hN.symm⟩, ?_, ?_, ?_⟩
  · intro fuel hf
    rw [hfill, fillLoop_eq_layout, List.drop_zero, layout_fuel_exact _ _ _ _ ho fuel,
      if_pos (by omega)]
  · intro fuel hf
    rw [fillLoop_eq_layout, List.drop_zero, layout_fuel_exact _ _ _ _ ho fuel,
      if_neg (by omega)]
  · rw [encode_readFrom, List.length_map]

/-! ## The length of the code word -/

/-- The first loop stops right after a data bit: the last position of a
non-empty slice fails the test of the code. -/
theorem layout_last (fuel pos : Nat) (rest : List Char) (out : List Nat)
    (h : layout fuel pos rest = some out) (hne : rest ≠ []) :
    0 < out.length ∧ isPerfectSquare (pos + out.length) = false := by
  induction fuel generalizing pos rest out with
  | zero =>
    cases rest with
    | nil => exact absurd rfl hne
    | cons c cs => simp [layout] at h
  | succ fuel ih =>
    cases rest with
    | nil => exact absurd rfl hne
    | cons c cs =>
      unfold layout at h
      split at h
      · cases hrec : layout fuel (pos + 1) (c :: cs) with
        | none => simp [hrec] at h
        | some out1 =>
          simp [hrec] at h
          subst h
          have h1 := ih _ _ _ hrec (by simp)
          refine ⟨by simp, ?_⟩
          rw [List.length_cons, show pos + (out1.length + 1) = pos + 1 + out1.length by omega]
          exact h1.2
      · rename_i hp
        cases hrec : layout fuel (pos + 1) cs with
        | none => simp [hrec] at h
        | some out1 =>
          simp [hrec] at h
          subst h
          refine ⟨by simp, ?_⟩
          cases cs with
          | nil =>
            have hout : out1 = [] := by
              cases fuel <;> simp [layout] at hrec <;> exact hrec
            subst hout
            simpa using hp
          | cons c2 cs2 =>
            have h1 := ih _ _ _ hrec (by simp)
            rw [List.length_cons,
              show pos + (out1.length + 1) = pos + 1 + out1.length by omega]
            exact h1.2

theorem dataPositions_succ (N : Nat) :
    dataPositions (N + 1) = dataPositions N + (if powerOfTwo (N + 1) = true then 0 else 1) := by
  unfold dataPositions
  rw [List.range'_1_concat, List.filter_append, List.length_append, Nat.add_comm 1 N]
  by_cases h : powerOfTwo (N + 1) = true
  · simp [List.filter_cons, h]
  · simp [List.filter_cons, h]

theorem parityPositions_succ (N : Nat) :
    parityPositions (N + 1)
      = parityPositions N + (if powerOfTwo (N + 1) = true then 1 else 0) := by
  unfold parityPositions
  rw [List.range'_1_concat, List.filter_append, List.length_append, Nat.add_comm 1 N]
  by_cases h : powerOfTwo (N + 1) = true
  · simp [List.filter_cons, h]
  · simp [List.filter_cons, h]

theorem dataPositions_add_parityPositions (N : Nat) :
    dataPositions N + parityPositions N = N := by
  induction N with
  | zero => rfl
  | succ N ih =>
    rw [dataPositions_succ, parityPositions_succ]
    split <;> omega

theorem dataPositions_mono (M N : Nat) (h : M ≤ N) : dataPositions M ≤ dataPositions N := by
  induction N with
  | zero =>
    have : M = 0 := by omega
    subst this
    exact le_refl _
  | succ N ih =>
    by_cases hM : M = N + 1
    · subst hM
      exact le_refl _
    · have := ih (by omega)
      rw [dataPositions_succ]
      omega

/-- Among `1..N` there are `r` powers of two exactly when `2^(r-1) ≤ N < 2^r`. -/
theorem parityPositions_bounds (N : Nat) :
    N < 2 ^ parityPositions N
      ∧ (0 < parityPositions N → 2 ^ (parityPositions N - 1) ≤ N) := by
  induction N with
  | zero => exact ⟨by decide, by decide⟩
  | succ N ih =>
    obtain ⟨h1, h2⟩ := ih
    rw [parityPositions_succ]
    by_cases hp : powerOfTwo (N + 1) = true
    · rw [if_pos hp]
      obtain ⟨k, hk⟩ := (powerOfTwo_iff _).mp hp
      have hkr : k ≤ parityPositions N := by
        by_contra hc
        have hle : 2 ^ (parityPositions N + 1) ≤ 2 ^ k :=
          Nat.pow_le_pow_right (by norm_num) (by omega)
        rw [pow_succ] at hle
        omega
      have hrk : parityPositions N ≤ k := by
        by_contra hc
        have hle : 2 ^ k ≤ 2 ^ (parityPositions N - 1) :=
          Nat.pow_le_pow_right (by norm_num) (by omega)
        have := h2 (by omega)
        omega
      have hkeq : k = parityPositions N := by omega
      rw [← hkeq]
      refine ⟨by rw [pow_succ]; omega, fun _ => ?_⟩
      rw [Nat.add_sub_cancel]
      omega
    · simp only [if_neg hp, Nat.add_zero]
      have hne : N + 1 ≠ 2 ^ parityPositions N := by
        intro he
        exact hp ((powerOfTwo_iff _).mpr ⟨_, he⟩)
      refine ⟨by omega, fun h0 => ?_⟩
      have := h2 h0
      omega

theorem two_pow_sub_mono (a b : Nat) (h : a ≤ b) : 2 ^ a + b ≤ 2 ^ b + a := by
  induction b with
  | zero =>
    have : a = 0 := by omega
    subst this
    exact le_refl _
  | succ b ih =>
    by_cases hab : a = b + 1
    · subst hab
      exact le_refl _
    · have h1 := ih (by omega)
      have h2 : 1 ≤ 2 ^ b := Nat.one_le_two_pow
      rw [pow_succ]
      omega

/-- The facts on the length of the code word the claims on it rest on. -/
theorem encode_length_facts (data : List Char) (hlen : data.length < 2 ^ 62) :
    dataPositions (encode data).length = data.length
    ∧ (data ≠ [] → 0 < (encode data).length ∧ powerOfTwo (encode data).length = false) := by
  have hN := encode_length_le data
  constructor
  · have h := congrArg List.length (encode_nonParityChars data hlen)
    rw [List.length_map] at h
    rw [← h]
    simp [nonParityChars, readFrom, dataPositions]
  · intro hne
    obtain ⟨out, ho, he⟩ := encode_eq data
    have hl := layout_last _ _ _ _ ho hne
    have hlen' : (encode data).length = out.length := by
      rw [he, render_length, parityLoop_length]
    rw [Nat.zero_add] at hl
    rw [hlen']
    refine ⟨hl.1, ?_⟩
    rw [← isPerfectSquare_eq_powerOfTwo _ hl.1 (by omega)]
    exact hl.2

theorem encode_nil : encode [] = [] := by
  decide

/-- C11 (code word length): for every input (short enough for its positions
to be Go `int`s), exactly `len(data)` of the positions `1..len(encode(data))`
are not powers of two, and no shorter length has that property; the code word
of the empty string is empty; for non-empty data the code word is non-empty
and its last position is not a power of two. -/
theorem encode_length_least (data : List Char) (hlen : data.length < 2 ^ 62) :
    dataPositions (encode data).length = data.length
    ∧ (∀ M, dataPositions M = data.length → (encode data).length ≤ M)
    ∧ encode [] = []
    ∧ (data ≠ [] → 0 < (encode data).length ∧ powerOfTwo (encode data).length = false) := by
  obtain ⟨h1, h2⟩ := encode_length_facts data hlen
  refine ⟨h1, ?_, encode_nil, h2⟩
  intro M hM
  by_cases hne : data = []
  · subst hne
    rw [encode_nil]
    exact Nat.zero_le _
  · obtain ⟨hpos, hpow⟩ := h2 hne
    by_contra hlt
    obtain ⟨N, hN⟩ : ∃ N, (encode data).length = N + 1 := ⟨(encode data).length - 1, by omega⟩
    rw [hN] at h1 hpow hlt
    rw [dataPositions_succ, hpow] at h1
    have hmono := dataPositions_mono M N (by omega)
    simp at h1
    omega

/-- Witness of C11: the rendering of payload 100. -/
theorem encode_length_least_witness :
    dataPositions (encode (sprintf08b 100)).length = (sprintf08b 100).length :=
  (encode_length_least (sprintf08b 100) (by decide)).1

/-- C15 (standard Hamming sizing rule): for every input of length `m` (short
enough for its positions to be Go `int`s), `len(encode(data)) = m + r` where
`r`, the number of power-of-two positions of the code word, is the least
natural number with `2^r ≥ m + r + 1`; so `m = 8` gives length 12, `m = 11`
length 15 and `m = 12` length 17. -/
theorem encode_hamming_size (data : List Char) (hlen : data.length < 2 ^ 62) :
    (encode data).length = data.length + parityPositions (encode data).length
    ∧ data.length + parityPositions (encode data).length + 1
        ≤ 2 ^ parityPositions (encode data).length
    ∧ (∀ r, r < parityPositions (encode data).length → 2 ^ r < data.length + r + 1)
    ∧ (data.length = 8 → (encode data).length = 12)
    ∧ (data.length = 11 → (encode data).length = 15)
    ∧ (data.length = 12 → (encode data).length = 17) := by
  obtain ⟨h1, h2⟩ := encode_length_facts data hlen
  have hsum := dataPositions_add_parityPositions (encode data).length
  obtain ⟨hb1, hb2⟩ := parityPositions_bounds (encode data).length
  have hA : (encode data).length = data.length + parityPositions (encode data).length := by
    omega
  have hB : data.length + parityPositions (encode data).length + 1
      ≤ 2 ^ parityPositions (encode data).length := by omega
  have hC : ∀ r, r < parityPositions (encode data).length → 2 ^ r < data.length + r + 1 := by
    intro r hr
    have hpos : 0 < parityPositions (encode data).length := by omega
    have hlow := hb2 hpos
    have hne : data ≠ [] := by
      rintro rfl
      rw [encode_nil] at hpos
      exact absurd hpos (by decide)
    obtain ⟨_, hpow⟩ := h2 hne
    have hstrict : 2 ^ (parityPositions (encode data).length - 1) ≠ (encode data).length := by
      intro he
      have : powerOfTwo (encode data).length = true := (powerOfTwo_iff _).mpr ⟨_, he.symm⟩
      rw [hpow] at this
      exact absurd this (by decide)
    have hmono := two_pow_sub_mono r (parityPositions (encode data).length - 1) (by omega)
    omega
  have hsize : ∀ m r N, data.length = m → 2 ^ r < m + r + 1 → m + (r + 1) + 1 ≤ 2 ^ (r + 1) →
      N = m + (r + 1) → (encode data).length = N := by
    intro m r N hm hr1 hr2 hN
    have hle : parityPositions (encode data).length ≤ r + 1 := by
      by_contra hc
      have := hC (r + 1) (by omega)
      omega
    have hge : r + 1 ≤ parityPositions (encode data).length := by
      by_contra hc
      have hmono := two_pow_sub_mono (parityPositions (encode data).length) r (by omega)
      omega
    omega
  refine ⟨hA, hB, hC, ?_, ?_, ?_⟩
  · intro hm
    exact hsize 8 3 12 hm (by decide) (by decide) (by decide)
  · intro hm
    exact hsize 11 3 15 hm (by decide) (by decide) (by decide)
  · intro hm
    exact hsize 12 4 17 hm (by decide) (by decide) (by decide)

/-- Witness of C15: the rendering of payload 100 has 8 + 4 characters. -/
theorem encode_hamming_size_witness :
    (encode (sprintf08b 100)).length
      = (sprintf08b 100).length + parityPositions (encode (sprintf08b 100)).length :=
  (encode_hamming_size (sprintf08b 100) (by decide)).1

/-! ## The level left by a frame -/

theorem frameWord_getLast (bits : List Char) : (frameWord bits).getLast? = some '1' := by
  unfold frameWord
  rw [List.getLast?_append, encode_preamble]
  rfl

/-- C17 (the line is left HIGH by every frame): `encode "101"` ends in '1', so
with a pin whose `Out` never fails a frame ends with `Out(HIGH)` and the sleep
after it, and leaves the line HIGH; in repeat mode the inter-repeat sleep is
the next call, made with the line HIGH, and without repeat the next call is
the `Out(LOW)` of `powerOff`. -/
theorem frame_leaves_high (bits : List Char) (d : Int) (pin : Pin) (w : World)
    (hok : ∀ k, pin k = none) :
    (encode ['1', '0', '1']).getLast? = some '1'
    ∧ (frame bits d pin w).1.line = some Level.High
    ∧ (∃ pre, (frame bits d pin w).1.trace
        = pre ++ [Event.out Level.High, Event.sleep (wrap64 (d * 2))])
    ∧ (∀ r n, r ≠ 0 →
        transmit bits d r pin (n + 1) w
          = transmit bits d r pin n (sleep r (frame bits d pin w).1))
    ∧ (∀ r, (sleep r (frame bits d pin w).1).line = some Level.High
        ∧ (sleep r (frame bits d pin w).1).trace
          = (frame bits d pin w).1.trace ++ [Event.sleep r])
    ∧ (∀ n, (transmit bits d 0 pin (n + 1) w).1.trace
        = (frame bits d pin w).1.trace ++ [Event.out Level.Low]) := by
  have hf := frame_ok bits d pin w (fun i _ _ => hok i)
  have hline : lineAfter (frameWord bits) w.line = some Level.High := by
    rw [lineAfter_getLast _ _ '1' (frameWord_getLast bits)]
    rfl
  refine ⟨by rw [encode_preamble]; rfl, ?_, ?_, ?_, ?_, ?_⟩
  · rw [hf]
    exact hline
  · rw [hf]
    refine ⟨w.trace ++ (pulses (encode ['1', '0', '1']) (wrap64 (d * 2))
      ++ pulses (encode bits) d
      ++ pulses ['1', '0', '1', '1', '0'] (wrap64 (d * 2))), ?_⟩
    have hp : pulses (encode ['1', '0', '1']) (wrap64 (d * 2))
        = pulses ['1', '0', '1', '1', '0'] (wrap64 (d * 2))
          ++ [Event.out Level.High, Event.sleep (wrap64 (d * 2))] := by
      rw [encode_preamble]
      rfl
    simp only [frameEvents]
    rw [hp]
    simp only [List.append_assoc]
  · intro r n hr
    conv_lhs => unfold transmit
    rw [hf]
    simp only [if_neg hr]
  · intro r
    rw [hf]
    exact ⟨hline, rfl⟩
  · intro n
    rw [transmit_once bits d pin n w hok, hf]

/-- Witness of C17: the frame of payload 100 at 50 ms per bit. -/
theorem frame_leaves_high_witness :
    (frame (sprintf08b 100) 50000000 (fun _ => none) World.init).1.line = some Level.High :=
  (frame_leaves_high (sprintf08b 100) 50000000 (fun _ => none) World.init
    (fun _ => rfl)).2.1

end LedCoder
